import Mathlib

/-!
# lami: slow-query log to line-delimited JSON

A shallow embedding of `main.go`: the query classifier `getQueryType`, the
finalizer `process`, the record builder `unmarshal` with the rule table and
its patterns, the coercer `parse`, the presenter `prepare`, and `Run` with its
reading loop.

Go strings are modelled as lists of Unicode code points (`Str`), so the model
covers valid UTF-8 input; `len` and `strings.Index` count UTF-8 bytes as in Go.
-/

set_option autoImplicit false

namespace Lami

/-! ## Strings -/

/-- A Go string holding valid UTF-8 text, as the list of its code points. -/
abbrev Str := List Char

/-- Go `len(s)` on a string: the number of bytes of its UTF-8 encoding. -/
def len (s : Str) : Nat := (s.map Char.utf8Size).sum

/-- Go `strings.HasPrefix(s, pre)`. -/
def HasPrefix (s pre : Str) : Bool := pre.isPrefixOf s

/-- Go `strings.Index(s, substr)`: the byte offset of the first instance of
`substr` in `s`, or `-1` when there is none. -/
def Index : Str → Str → Int
  | [], substr => if substr.isEmpty then 0 else -1
  | c :: s, substr =>
    if substr.isPrefixOf (c :: s) then 0
    else
      let i := Index s substr
      if i < 0 then -1 else i + c.utf8Size

/-- Go `strings.ToLower` on ASCII text (the rule names are ASCII). -/
def ToLower (s : Str) : Str := s.map Char.toLower

/-! ## Query classification (`getQueryType`, main.go 276-300) -/

/-- The `operations` slice of `getQueryType`, in source order. -/
def operations : List Str :=
  ["SELECT".toList, "INSERT".toList, "UPDATE".toList, "DELETE".toList, "DROP".toList]

/-- One iteration of the loop of `getQueryType` on the state `(min, queryType)`. -/
def scanOperation (query : Str) (st : Int × Str) (operation : Str) : Int × Str :=
  let index := Index query operation
  if index ≥ 0 ∧ (index ≤ st.1 ∨ st.1 = -1) then (index, operation) else st

/-- The function `getQueryType` of main.go. -/
def getQueryType (query : Str) : Str :=
  let st := operations.foldl (scanOperation query) (-1, [])
  if st.1 ≥ 0 then st.2 else []

/-- The first element of a list at which `f` is least: a later element replaces
an earlier one only when it is strictly smaller. -/
def firstMin (f : Str → Int) : List Str → Option Str
  | [] => none
  | a :: l =>
    match firstMin f l with
    | none => some a
    | some b => if f b < f a then some b else some a

/-- The reference classifier in the words of the specification: among the
vocabulary tokens that occur in the text, the one with the smallest offset,
ties broken by the earliest position in the vocabulary order; the empty string
when no token occurs. -/
def refQueryType (query : Str) : Str :=
  match firstMin (Index query) (operations.filter fun op => 0 ≤ Index query op) with
  | some op => op
  | none => []

/-! ## Records (`type Record map[string]interface{}`) -/

/-- The dynamic values a record holds. A `time.Time` is the instant it denotes,
in nanoseconds since the Unix epoch; a `time.Duration` is its `int64` count of
nanoseconds (between `-2^63` and `2^63 - 1`). A `float64` arises only as
`d.Seconds()` for a duration `d` and is kept as that `d`: how the quotient is
rounded to binary floating point is not modelled. -/
inductive Value where
  | time (t : Int)
  | duration (d : Int)
  | int64 (n : Int)
  | int (n : Int)
  | bool (b : Bool)
  | string (s : Str)
  | nil
  | float64 (secondsOf : Int)
  deriving DecidableEq, Repr

/-- A record: a Go map, kept as a list of bindings with pairwise distinct keys. -/
abbrev Record := List (Str × Value)

/-- The lookup `record[k]`; `none` when the key is absent. -/
def Record.get : Record → Str → Option Value
  | [], _ => none
  | (k', v) :: r, k => if k' = k then some v else Record.get r k

/-- The assignment `record[k] = v`. -/
def Record.set : Record → Str → Value → Record
  | [], k, v => [(k, v)]
  | (k', v') :: r, k, v => if k' = k then (k, v) :: r else (k', v') :: Record.set r k v

/-- The value an `int64` computation wraps to. -/
def wrapInt64 (x : Int) : Int := (x + 2 ^ 63) % 2 ^ 64 - 2 ^ 63

/-- The method `Time.Add` on instants: the instant `t + d`, exact for every
instant a `time.Time` can hold without saturating. -/
def timeAdd (t d : Int) : Int := t + d

/-! ## The finalizer (`process`, main.go 183-199) -/

/-- The function `process` of main.go: the record after the call and the flag `ok`. -/
def process (record : Record) : Record × Bool :=
  match record.get "time".toList with
  | some (.time timeEnd) =>
    let record :=
      match record.get "query_time".toList with
      | some (.duration queryTime) =>
        record.set "time_start".toList (.time (timeAdd timeEnd (wrapInt64 (queryTime * -1))))
      | _ => record
    let record :=
      match record.get "query".toList with
      | some (.string query) =>
        (record.set "query_length".toList (.int (len query))).set
          "query_type".toList (.string (getQueryType query))
      | _ => record
    (record, true)
  | _ => (record, false)

/-! ## Coercions of the standard library -/

/-- A decimal digit `0`-`9`. -/
def isDigit (c : Char) : Bool := decide ('0' ≤ c) && decide (c ≤ '9')

/-- The numeric value of a decimal digit. -/
def digitVal (c : Char) : Nat := c.toNat - '0'.toNat

/-- Leap years of the Gregorian calendar. -/
def isLeap (year : Int) : Bool :=
  decide (year % 4 = 0) && (decide (year % 100 ≠ 0) || decide (year % 400 = 0))

/-- The number of days of a month (`daysIn` of package time). -/
def daysIn (month : Nat) (year : Int) : Nat :=
  if month = 2 then (if isLeap year then 29 else 28)
  else if month = 4 ∨ month = 6 ∨ month = 9 ∨ month = 11 then 30 else 31

/-- Days from 1970-01-01 to the first day of `year`. -/
def daysBeforeYear (year : Int) : Int :=
  365 * (year - 1970) + ((year - 1) / 4 - 492) - ((year - 1) / 100 - 19) + ((year - 1) / 400 - 4)

/-- Days from the first day of the year to the first day of `month`. -/
def daysBeforeMonth (month : Nat) (year : Int) : Nat :=
  ((List.range (month - 1)).map fun m => daysIn (m + 1) year).sum

/-- The instant `time.Date(year, month, day, hour, min, sec, nsec, time.UTC)` for
in-range arguments, in nanoseconds since the Unix epoch. -/
def Date (year : Int) (month day hour min sec nsec : Nat) : Int :=
  (((daysBeforeYear year + daysBeforeMonth month year + (day - 1 : Nat)) * 86400
    + hour * 3600 + min * 60 + sec) * 1000000000) + nsec

/-- The helper `getnum` of package time: one or two leading digits (exactly two
when `fixed`). -/
def getnum (s : Str) (fixed : Bool) : Option (Nat × Str) :=
  match s with
  | [] => none
  | [a] => if isDigit a then (if fixed then none else some (digitVal a, [])) else none
  | a :: b :: rest =>
    if isDigit a then
      if isDigit b then some (digitVal a * 10 + digitVal b, rest)
      else if fixed then none else some (digitVal a, b :: rest)
    else none

/-- The two-character year of layout element `06`, read by `atoi`: two digits,
or a sign and a digit; 69 and above fall in the 1900s. -/
def getyear (s : Str) : Option (Int × Str) :=
  match s with
  | a :: b :: rest =>
    let y : Option Int :=
      if a = '+' then (if isDigit b then some (digitVal b : Int) else none)
      else if a = '-' then (if isDigit b then some (-(digitVal b : Int)) else none)
      else if isDigit a && isDigit b then some ((digitVal a * 10 + digitVal b : Nat) : Int)
      else none
    y.map fun y => (if y ≥ 69 then y + 1900 else y + 2000, rest)
  | _ => none

/-- The helper `skip` of package time for a one-character literal of the layout:
a space of the layout stands for any run of spaces of the value. -/
def skipLit (c : Char) (value : Str) : Option Str :=
  if c = ' ' then
    match value with
    | [] => some []
    | d :: _ => if d = ' ' then some (value.dropWhile fun x => x = ' ') else none
  else
    match value with
    | [] => none
    | d :: rest => if d = c then some rest else none

/-- The fractional second `time.Parse` accepts after the seconds although the
layout has none: a period or comma and digits, of which nine are kept. -/
def fracSecond (value : Str) : Nat × Str :=
  match value with
  | p :: d :: rest =>
    if (p = '.' || p = ',') && isDigit d then
      let ds := (d :: rest).takeWhile isDigit
      let kept := ds.take 9
      ((kept.foldl (fun n c => n * 10 + digitVal c) 0) * 10 ^ (9 - kept.length),
        (d :: rest).dropWhile isDigit)
    else (0, value)
  | _ => (0, value)

/-- Go `time.Parse("060102 15:04:05", value)`: the instant, or `none` on error. -/
def Parse (value : Str) : Option Int := do
  let (year, value) ← getyear value
  let (month, value) ← getnum value true
  if month = 0 ∨ 12 < month then none
  let (day, value) ← getnum value true
  let value ← skipLit ' ' value
  let (hour, value) ← getnum value false
  if 24 ≤ hour then none
  let value ← skipLit ':' value
  let (min, value) ← getnum value true
  if 60 ≤ min then none
  let value ← skipLit ':' value
  let (sec, value) ← getnum value true
  if 60 ≤ sec then none
  let (nsec, value) := fracSecond value
  if value ≠ [] then none
  if day < 1 ∨ daysIn month year < day then none
  pure (Date year month day hour min sec nsec)

/-- The helper `leadingInt` of package time: the leading digits as a number,
`none` when it exceeds `2^63`. -/
def leadingInt : Str → Nat → Option (Nat × Str)
  | [], x => some (x, [])
  | c :: s, x =>
    if isDigit c then
      if x > 2 ^ 63 / 10 then none
      else if x * 10 + digitVal c > 2 ^ 63 then none
      else leadingInt s (x * 10 + digitVal c)
    else some (x, c :: s)

/-- A non-negative `float64`: the finite value `m * 2^e`, or `+Inf`. -/
inductive F64 where
  | fin (m : Nat) (e : Int)
  | inf
  deriving DecidableEq, Repr

/-- The position of the leading bit of `n` (zero for `n < 2`); `fuel` is at
least `n`. -/
def log2Floor : Nat → Nat → Nat
  | 0, _ => 0
  | fuel + 1, n => if n < 2 then 0 else log2Floor fuel (n / 2) + 1

/-- The `float64` nearest to the quotient `n / d` of two naturals (`d` positive)
under IEEE 754 round-to-nearest, ties to even: 53 significant bits, the least
exponent `-1074` of the subnormals, and `+Inf` from `2^1024` on. -/
def roundF64 (n d : Nat) : F64 :=
  if n = 0 then .fin 0 0
  else
    let k : Int := (log2Floor n n : Int) - (log2Floor d d : Int)
    let lg : Int := if n * 2 ^ (-k).toNat ≥ d * 2 ^ k.toNat then k else k - 1
    let e : Int := max (lg - 52) (-1074)
    let num := n * 2 ^ (-e).toNat
    let den := d * 2 ^ e.toNat
    let q := num / den
    let r := num % den
    let m := if 2 * r > den ∨ (2 * r = den ∧ q % 2 = 1) then q + 1 else q
    if e ≥ 0 ∧ m * 2 ^ e.toNat ≥ 2 ^ 1024 then .inf else .fin m e

/-- The conversion `float64(n)` of an unsigned integer. -/
def F64.ofNat (n : Nat) : F64 := roundF64 n 1

/-- The product of two `float64`, the factors positive when one is `+Inf`. -/
def F64.mul : F64 → F64 → F64
  | .fin m1 e1, .fin m2 e2 =>
    roundF64 (m1 * m2 * 2 ^ (e1 + e2).toNat) (2 ^ (-(e1 + e2)).toNat)
  | _, _ => .inf

/-- The quotient of two `float64`, the divisor positive. -/
def F64.div : F64 → F64 → F64
  | .fin m1 e1, .fin m2 e2 => roundF64 (m1 * 2 ^ (e1 - e2).toNat) (m2 * 2 ^ (e2 - e1).toNat)
  | .fin _ _, .inf => .fin 0 0
  | .inf, _ => .inf

/-- The conversion `uint64(x)` of a finite `float64` below `2^64`: the integer
part. -/
def F64.toUint64 : F64 → Nat
  | .fin m e => m * 2 ^ e.toNat / 2 ^ (-e).toNat
  | .inf => 0

/-- The helper `leadingFraction` of package time: the leading digits as a
numerator and the scale, a `float64` multiplied by ten for every digit taken;
digits past the overflow of the numerator are dropped. -/
def leadingFraction : Str → Nat → F64 → Bool → Nat × F64 × Str
  | [], x, scale, _ => (x, scale, [])
  | c :: s, x, scale, overflow =>
    if isDigit c then
      if overflow then leadingFraction s x scale true
      else if x > (2 ^ 63 - 1) / 10 then leadingFraction s x scale true
      else if x * 10 + digitVal c > 2 ^ 63 then leadingFraction s x scale true
      else leadingFraction s (x * 10 + digitVal c) (F64.mul scale (F64.ofNat 10)) false
    else (x, scale, c :: s)

/-- The table `unitMap` of package time, in nanoseconds. -/
def unitMap (u : Str) : Option Nat :=
  if u = "ns".toList then some 1
  else if u = "us".toList then some 1000
  else if u = "µs".toList then some 1000
  else if u = "μs".toList then some 1000
  else if u = "ms".toList then some 1000000
  else if u = "s".toList then some 1000000000
  else if u = "m".toList then some 60000000000
  else if u = "h".toList then some 3600000000000
  else none

/-- The loop of `time.ParseDuration` over the groups `[0-9]*(\.[0-9]*)?[a-z]+`,
adding to `d`; `fuel` bounds the number of groups. The fraction is added as
`uint64(float64(f) * (float64(unit) / scale))`, in `float64` arithmetic. -/
def durationGroups : Nat → Str → Nat → Option Nat
  | _, [], d => some d
  | 0, _ :: _, _ => none
  | fuel + 1, c :: s, d =>
    if !(c = '.' || isDigit c) then none
    else
      match leadingInt (c :: s) 0 with
      | none => none
      | some (v, s1) =>
        let pre := decide (s1.length ≠ (c :: s).length)
        let fr : Nat × F64 × Str × Bool :=
          match s1 with
          | '.' :: s2 =>
            let r := leadingFraction s2 0 (F64.ofNat 1) false
            (r.1, r.2.1, r.2.2, decide (r.2.2.length ≠ s2.length))
          | _ => (0, F64.ofNat 1, s1, false)
        if !pre && !fr.2.2.2 then none
        else
          let isNum : Char → Bool := fun x => x = '.' || isDigit x
          let u := fr.2.2.1.takeWhile fun x => !isNum x
          let rest := fr.2.2.1.dropWhile fun x => !isNum x
          if u = [] then none
          else
            match unitMap u with
            | none => none
            | some unit =>
              if v > 2 ^ 63 / unit then none
              else
                let v :=
                  if fr.1 > 0 then
                    v * unit +
                      (F64.mul (F64.ofNat fr.1) (F64.div (F64.ofNat unit) fr.2.1)).toUint64
                  else v * unit
                if v > 2 ^ 63 then none
                else if d + v > 2 ^ 63 then none
                else durationGroups fuel rest (d + v)

/-- Go `time.ParseDuration(s)`: the nanoseconds, or `none` on error. -/
def ParseDuration (s : Str) : Option Int :=
  let sg : Bool × Str :=
    match s with
    | '-' :: t => (true, t)
    | '+' :: t => (false, t)
    | _ => (false, s)
  if sg.2 = "0".toList then some 0
  else if sg.2 = [] then none
  else
    match durationGroups sg.2.length sg.2 0 with
    | none => none
    | some d =>
      if sg.1 then some (-(d : Int))
      else if d > 2 ^ 63 - 1 then none else some (d : Int)

/-- Go `strconv.ParseInt(s, 10, 64)`: the value, or `none` on a syntax or range
error. -/
def ParseInt (s : Str) : Option Int :=
  let sg : Bool × Str :=
    match s with
    | '-' :: t => (true, t)
    | '+' :: t => (false, t)
    | _ => (false, s)
  if sg.2 = [] then none
  else if !sg.2.all isDigit then none
  else
    let un := sg.2.foldl (fun n c => n * 10 + digitVal c) 0
    if sg.1 then (if un > 2 ^ 63 then none else some (-(un : Int)))
    else if un ≥ 2 ^ 63 then none else some (un : Int)

/-! ## The rule table and its patterns (main.go 19-77) -/

/-- The table `rules`: field name and kind, in source order. -/
def rules : List (Str × Str) :=
  [ ("Time".toList, "datetime".toList),
    ("Schema".toList, "string".toList),
    ("Query_time".toList, "time".toList),
    ("Lock_time".toList, "time".toList),
    ("Rows_sent".toList, "int".toList),
    ("Rows_examined".toList, "int".toList),
    ("Rows_affected".toList, "int".toList),
    ("Rows_read".toList, "int".toList),
    ("Bytes_sent".toList, "int".toList),
    ("Tmp_tables".toList, "int".toList),
    ("Tmp_disk_tables".toList, "int".toList),
    ("Tmp_table_sizes".toList, "int".toList),
    ("QC_Hit".toList, "bool".toList),
    ("Full_scan".toList, "bool".toList),
    ("Full_join".toList, "bool".toList),
    ("Tmp_table".toList, "bool".toList),
    ("Tmp_table_on_disk".toList, "bool".toList),
    ("Filesort".toList, "bool".toList),
    ("Filesort_on_disk".toList, "bool".toList),
    ("Merge_passes".toList, "int".toList),
    ("InnoDB_IO_r_ops".toList, "int".toList),
    ("InnoDB_IO_r_bytes".toList, "int".toList),
    ("InnoDB_IO_r_wait".toList, "time".toList),
    ("InnoDB_rec_lock_wait".toList, "time".toList),
    ("InnoDB_queue_wait".toList, "time".toList),
    ("InnoDB_pages_distinct".toList, "int".toList) ]

/-- The capture patterns `compileRegexps` chooses from:
`.*`, `\w+`, `[0-9\.]+` and `\d+`. -/
inductive Data where
  | any
  | word
  | number
  | digits
  deriving DecidableEq, Repr

/-- The characters a capture pattern repeats. -/
def Data.accepts : Data → Char → Bool
  | .any, c => c != '\n'
  | .word, c => c.isAlphanum || c = '_'
  | .number, c => isDigit c || c = '.'
  | .digits, c => isDigit c

/-- The least number of characters a capture pattern takes. -/
def Data.least : Data → Nat
  | .any => 0
  | _ => 1

/-- The compiled pattern `^# .*` + key + `: (` + data + `)`; the key is a
literal since the rule names hold letters, digits and underscores only. -/
structure Regexp where
  key : Str
  data : Data
  deriving DecidableEq, Repr

/-- The capture pattern of a rule kind (the `switch` of `compileRegexps`);
`none` is the `panic` of the default branch. -/
def dataOf (rule : Str) : Option Data :=
  if rule = "datetime".toList then some .any
  else if rule = "string".toList then some .word
  else if rule = "time".toList then some .number
  else if rule = "int".toList then some .digits
  else if rule = "bool".toList then some .word
  else none

/-- The function `compileRegexps` on a rule table: the table `regexps` it
fills, or `none` when it panics on an unknown kind. -/
def compileRegexps (rules : List (Str × Str)) : Option (List (Str × Regexp)) :=
  rules.mapM fun kr => (dataOf kr.2).map fun d => (kr.1, Regexp.mk kr.1 d)

/-- The table `regexps` after `compileRegexps()` on the shipped rules. -/
def regexps : List (Str × Regexp) := (compileRegexps rules).getD []

/-- The part `key: (data)` of a pattern tried at the head of `s`: the capture. -/
def Regexp.captureAt (re : Regexp) (s : Str) : Option Str :=
  if (re.key ++ ": ".toList).isPrefixOf s then
    let cap := (s.drop (re.key ++ ": ".toList).length).takeWhile re.data.accepts
    if re.data.least ≤ cap.length then some cap else none
  else none

/-- The part `.*key: (data)` of a pattern on `s`: the greedy `.*` takes the
longest run (without newline) after which the rest matches. -/
def Regexp.afterStar (re : Regexp) : Str → Option Str
  | [] => re.captureAt []
  | c :: s =>
    match (if c != '\n' then re.afterStar s else none) with
    | some cap => some cap
    | none => re.captureAt (c :: s)

/-- Go `re.FindStringSubmatch(s)` for a compiled pattern, reduced to what `match`
reads: the first capture group `matches[1]`, or `none` without a match. -/
def Regexp.FindStringSubmatch (re : Regexp) (s : Str) : Option Str :=
  match s with
  | '#' :: ' ' :: rest => re.afterStar rest
  | _ => none

/-! ## The matcher and coercer (`match` and `parse`, main.go 243-274) -/

/-- How a call ends other than by returning: `log.Fatalf` in `unmarshal`, or a
run-time panic (a failed type assertion, a missing pattern). -/
inductive Failure where
  | fatal (key raw : Str)
  | panic
  deriving DecidableEq, Repr

/-- Equality of results is decidable. -/
instance instDecidableEqExcept {ε α : Type} [DecidableEq ε] [DecidableEq α] :
    DecidableEq (Except ε α)
  | .ok a, .ok b => if h : a = b then isTrue (by rw [h]) else isFalse (by intro e; cases e; exact h rfl)
  | .error a, .error b =>
    if h : a = b then isTrue (by rw [h]) else isFalse (by intro e; cases e; exact h rfl)
  | .ok _, .error _ => isFalse (by intro e; cases e)
  | .error _, .ok _ => isFalse (by intro e; cases e)

/-- The function `match` of main.go on the table `regexps`. -/
def match_ (regexps : List (Str × Regexp)) (data key : Str) : Except Failure (Option Str) :=
  match regexps.lookup key with
  | none => .error .panic
  | some re => .ok (re.FindStringSubmatch data)

/-- The function `parse` of main.go: the value, or `none` for a non-nil error. -/
def parse (raw _key rule : Str) : Option Value :=
  if rule = "datetime".toList then (Parse raw).map Value.time
  else if rule = "time".toList then (ParseDuration (raw ++ "s".toList)).map Value.duration
  else if rule = "string".toList then some (.string raw)
  else if rule = "int".toList then (ParseInt raw).map Value.int64
  else if rule = "bool".toList then
    if raw = "Yes".toList then some (.bool true)
    else if raw = "No".toList then some (.bool false)
    else none
  else some .nil

/-! ## The record builder (`unmarshal`, main.go 215-241) -/

/-- The body of the loop over `rules` in `unmarshal` for one rule. -/
def applyRule (regexps : List (Str × Regexp)) (line : Str) (record : Record)
    (kr : Str × Str) : Except Failure Record :=
  match match_ regexps line kr.1 with
  | .error e => .error e
  | .ok none => .ok record
  | .ok (some raw) =>
    match parse raw kr.1 kr.2 with
    | none => .error (.fatal kr.1 raw)
    | some value => .ok (record.set (ToLower kr.1) value)

/-- The loop over `rules` in `unmarshal`, in the order of the list. -/
def scanRules (regexps : List (Str × Regexp)) (line : Str) :
    List (Str × Str) → Record → Except Failure Record
  | [], record => .ok record
  | kr :: rest, record =>
    match applyRule regexps line record kr with
    | .error e => .error e
    | .ok record => scanRules regexps line rest record

/-- The function `unmarshal` of main.go on given tables. -/
def unmarshalWith (rules : List (Str × Str)) (regexps : List (Str × Regexp))
    (line : Str) (record : Record) : Except Failure Record :=
  if !HasPrefix line "# ".toList then
    match record.get "query".toList with
    | some (.string query) => .ok (record.set "query".toList (.string (query ++ line)))
    | some _ => .error .panic
    | none => scanRules regexps line rules (record.set "query".toList (.string line))
  else scanRules regexps line rules record

/-- The function `unmarshal` of main.go on the shipped tables. -/
def unmarshal (line : Str) (record : Record) : Except Failure Record :=
  unmarshalWith rules regexps line record

/-! ## The reading loop (`Run`, main.go 116-153) -/

/-- A record begins at a line with this start (`strings.HasPrefix(line, "# Time: ")`). -/
def isMarker (line : Str) : Bool := HasPrefix line "# Time: ".toList

/-- The records after `process` on `record`, appended when accepted. -/
def flush (record : Record) (records : List Record) : List Record :=
  if (process record).2 then records ++ [(process record).1] else records

/-- The `for` loop of `Run` over what `reader.ReadLine()` returns before the end
of the input, each a pair `(data, isPrefix)`, from the state `line`, `record`,
`records`; after the loop the last record is processed. -/
def RunLoop : List (Str × Bool) → Str → Record → List Record → Except Failure (List Record)
  | [], _, record, records => .ok (flush record records)
  | (data, isPrefix) :: rest, line, record, records =>
    if isPrefix then RunLoop rest (line ++ data) record records
    else
      let line := data
      let records :=
        if isMarker line then (if record.length > 0 then flush record records else records)
        else records
      let record := if isMarker line then [] else record
      match unmarshal line record with
      | .error e => .error e
      | .ok record => RunLoop rest line record records

/-- The records `Run` collects (main.go 110-153) and hands to `prepare`. -/
def RunRecords (input : List (Str × Bool)) : Except Failure (List Record) :=
  RunLoop input [] [] []

/-- The reader's answers for lines that each fit the buffer: one whole line at
a time, never flagged `isPrefix`. -/
def wholeLines (lines : List Str) : List (Str × Bool) := lines.map fun l => (l, false)

/-! ## The presenter (`prepare`, main.go 201-213) and `Run` (main.go 101-169) -/

/-- The character of a digit value below ten. -/
def digitChar (d : Nat) : Char := Char.ofNat (48 + d)

/-- The decimal digits of a number, most significant first; `fuel` bounds their
count. -/
def natDigits : Nat → Nat → Str
  | 0, _ => []
  | fuel + 1, n => if n < 10 then [digitChar n] else natDigits fuel (n / 10) ++ [digitChar (n % 10)]

/-- The helper `appendInt` of package time: the number in decimal, padded with
zeros to `width` digits, after a minus sign when negative. -/
def appendInt (x : Int) (width : Nat) : Str :=
  let ds := natDigits 20 x.natAbs
  (if x < 0 then ['-'] else []) ++ List.replicate (width - ds.length) '0' ++ ds

/-- The civil date `(year, month, day)` of a day count from 1970-01-01. -/
def civil (days : Int) : Int × Int × Int :=
  let z := days + 719468
  let era := z / 146097
  let doe := z - era * 146097
  let yoe := (doe - doe / 1460 + doe / 36524 - doe / 146096) / 365
  let doy := doe - (365 * yoe + yoe / 4 - yoe / 100)
  let mp := (5 * doy + 2) / 153
  let d := doy - (153 * mp + 2) / 5 + 1
  let m := if mp < 10 then mp + 3 else mp - 9
  (if m ≤ 2 then yoe + era * 400 + 1 else yoe + era * 400, m, d)

/-- Go `t.Format("2006-01-02 15:04:05.00000000")` for an instant in UTC: the
date, the time of day and the first eight digits of the nanoseconds. -/
def Format (t : Int) : Str :=
  let secs := t / 1000000000
  let nanos := t % 1000000000
  let days := secs / 86400
  let sod := secs % 86400
  let ymd := civil days
  appendInt ymd.1 4 ++ ['-'] ++ appendInt ymd.2.1 2 ++ ['-'] ++ appendInt ymd.2.2 2 ++ [' '] ++
    appendInt (sod / 3600) 2 ++ [':'] ++ appendInt (sod % 3600 / 60) 2 ++ [':'] ++
    appendInt (sod % 60) 2 ++ ['.'] ++ (appendInt nanos 9).take 8

/-- The `switch` of `prepare` on one value. -/
def prepareValue : Value → Value
  | .time value => .string (Format value)
  | .duration value => .float64 value
  | value => value

/-- The function `prepare` of main.go: the loop visits every key once and
assigns under the same key, so each binding keeps its key and gets the
converted value. -/
def prepare (record : Record) : Record :=
  record.map fun kv => (kv.1, prepareValue kv.2)

/-- The function `Run` of main.go on what the reader returns: the prepared
records it goes on to encode and save, one line each, or the failure that ends
the process before anything is saved. -/
def Run (input : List (Str × Bool)) : Except Failure (List Record) :=
  match compileRegexps rules with
  | none => .error .panic
  | some _ =>
    match RunRecords input with
    | .error e => .error e
    | .ok records => .ok (records.map prepare)

/-- The records a run saves to the output file. -/
def output (res : Except Failure (List Record)) : List Record :=
  match res with
  | .ok records => records
  | .error _ => []

/-! ## The reference segmentation -/

/-- The blocks of a sequence of lines: a new block begins at each marker line,
which is the first line of its block; the lines before the first marker form
the leading block. -/
def splitBlocks : List Str → List Str × List (List Str)
  | [] => ([], [])
  | l :: ls =>
    let r := splitBlocks ls
    if isMarker l then ([], (l :: r.1) :: r.2) else (l :: r.1, r.2)

/-- The record of a block: `unmarshal` applied to its lines in order. -/
def buildRecord : List Str → Record → Except Failure Record
  | [], record => .ok record
  | l :: ls, record =>
    match unmarshal l record with
    | .error e => .error e
    | .ok record => buildRecord ls record

/-- The records of the blocks, in order, each built from the empty record. -/
def buildAll : List (List Str) → Except Failure (List Record)
  | [] => .ok []
  | b :: bs =>
    match buildRecord b [] with
    | .error e => .error e
    | .ok r =>
      match buildAll bs with
      | .error e => .error e
      | .ok rs => .ok (r :: rs)

/-- The records `process` accepts, after `process`, in order. -/
def accepted (rs : List Record) : List Record :=
  rs.filterMap fun r => if (process r).2 then some (process r).1 else none

/-- The reference result: split into blocks, build each block's record from the
empty record, process each and keep the accepted ones in order. -/
def reference (lines : List Str) : Except Failure (List Record) :=
  match buildAll ((splitBlocks lines).1 :: (splitBlocks lines).2) with
  | .error e => .error e
  | .ok rs => .ok (accepted rs)

/-- Every coercion succeeds on the line: whatever a rule's pattern captures in
it, `parse` converts without error. -/
def Coercible (line : Str) : Prop :=
  ∀ kr ∈ rules, ∀ raw, match_ regexps line kr.1 = .ok (some raw) →
    parse raw kr.1 kr.2 ≠ none

/-- Every coercion succeeds on the line, as a test that can be evaluated. -/
def coercible (line : Str) : Bool :=
  rules.all fun kr =>
    match match_ regexps line kr.1 with
    | .ok (some raw) => (parse raw kr.1 kr.2).isSome
    | _ => true

/-- The three lines of the first example of the specification. -/
def example1 : List Str :=
  [ "# Time: 230101 10:00:00".toList,
    "# Query_time: 2.5  Lock_time: 0.0 Rows_sent: 1  Rows_examined: 10".toList,
    "SELECT * FROM t;".toList ]

/-- The record the loop of `Run` collects for `example1`. -/
def example1Record : Record :=
  [ ("time".toList, .time (Date 2023 1 1 10 0 0 0)),
    ("query_time".toList, .duration 2500000000),
    ("lock_time".toList, .duration 0),
    ("rows_sent".toList, .int64 1),
    ("rows_examined".toList, .int64 10),
    ("query".toList, .string "SELECT * FROM t;".toList),
    ("time_start".toList, .time (Date 2023 1 1 9 59 57 500000000)),
    ("query_length".toList, .int 16),
    ("query_type".toList, .string "SELECT".toList) ]

/-- Two consecutive marker lines, the first block without a `Query_time`
annotation. -/
def twoBlocks : List Str :=
  [ "# Time: 230101 10:00:00".toList, "# Time: 230101 10:00:05".toList,
    "# Query_time: 2.5".toList ]

/-- A log of two blocks after a line that precedes the first marker. -/
def example2 : List Str :=
  [ "use db;".toList,
    "# Time: 230101 10:00:00".toList,
    "# Query_time: 2.5  Lock_time: 0.0 Rows_sent: 1  Rows_examined: 10".toList,
    "SELECT * FROM t;".toList,
    "# Time: 230101 10:00:05".toList,
    "# Query_time: 1  Full_scan: Yes".toList,
    "UPDATE t SET".toList,
    " a = 1;".toList ]

/-- A log with one complete block followed by a block whose annotation fails
coercion. -/
def example3 : List Str :=
  example1 ++ ["# Time: 230101 10:00:05".toList, "# Full_scan: Maybe".toList,
    "SELECT 2;".toList]

/-- The lines the loop of `Run` hands to the marker test and to `unmarshal`: what
the reader returns without the flag `isPrefix`. -/
def handed (input : List (Str × Bool)) : List Str :=
  (input.filter fun ev => !ev.2).map Prod.fst

/-- A log whose statement line the reader returns in two pieces, the first
flagged `isPrefix`. -/
def longLog : List (Str × Bool) :=
  [ ("# Time: 230101 10:00:00".toList, false),
    ("# Query_time: 2.5".toList, false),
    ("SELECT * FROM t WHERE id IN (".toList, true),
    ("1,2,3);".toList, false) ]

/-- The logical lines of `longLog`. -/
def longLogLines : List Str :=
  [ "# Time: 230101 10:00:00".toList, "# Query_time: 2.5".toList,
    "SELECT * FROM t WHERE id IN (1,2,3);".toList ]

/-- A log whose annotation line with a failing coercion the reader returns in
two pieces, the first flagged `isPrefix`. -/
def brokenLog : List (Str × Bool) :=
  [ ("# Time: 230101 10:00:00".toList, false),
    ("# Schema: db ".toList, true),
    ("Full_scan: Maybe".toList, false) ]

/-- The logical lines of `brokenLog`. -/
def brokenLogLines : List Str :=
  [ "# Time: 230101 10:00:00".toList, "# Schema: db Full_scan: Maybe".toList ]

/-- A log whose first line the reader returns in two pieces, the first flagged
`isPrefix`. -/
def fragmented : List (Str × Bool) :=
  [ ("# Time: 230101 ".toList, true),
    ("10:00:00".toList, false),
    ("# Query_time: 2.5".toList, false),
    ("SELECT 1;".toList, false) ]

/-- The logical lines of `fragmented`. -/
def fragmentedLines : List Str :=
  [ "# Time: 230101 10:00:00".toList, "# Query_time: 2.5".toList, "SELECT 1;".toList ]

/-- The token `tok` occurs in `q` at byte offset `off`. -/
def OccursAt (q tok : Str) (off : Nat) : Prop :=
  ∃ pre suf, q = pre ++ tok ++ suf ∧ len pre = off

/-- The number a string of decimal digits denotes. -/
def decimal (s : Str) : Nat := s.foldl (fun n c => n * 10 + digitVal c) 0

/-- The five kinds `compileRegexps` and `parse` handle. -/
def kinds : List Str :=
  ["datetime".toList, "string".toList, "time".toList, "int".toList, "bool".toList]

/-- The keys `unmarshal` and `process` store besides the rule names: the query
text and the derived fields. -/
def derivedKeys : List Str :=
  ["query".toList, "time_start".toList, "query_length".toList, "query_type".toList]

/-- The record `unmarshal` builds from the lines of `example1`. -/
def example1Built : Record :=
  [ ("time".toList, .time (Date 2023 1 1 10 0 0 0)),
    ("query_time".toList, .duration 2500000000),
    ("lock_time".toList, .duration 0),
    ("rows_sent".toList, .int64 1),
    ("rows_examined".toList, .int64 10),
    ("query".toList, .string "SELECT * FROM t;".toList) ]

/-! ## Invariants used in the proofs -/

/-- Two records are the same map: they hold the same value under every key. -/
def RecEq (a b : Record) : Prop := ∀ k, a.get k = b.get k

/-- Two calls end alike: both return, with the same map, or both end the run. -/
def SameOutcome (a b : Except Failure Record) : Prop :=
  match a, b with
  | .ok x, .ok y => RecEq x y
  | .error _, .error _ => True
  | _, _ => False

/-- What one rule does on a line, whatever the record: it ends the run, leaves
the record, or stores a value under a key. -/
def ruleEffect (regexps : List (Str × Regexp)) (line : Str) (kr : Str × Str) :
    Except Failure (Option (Str × Value)) :=
  match match_ regexps line kr.1 with
  | .error e => .error e
  | .ok none => .ok none
  | .ok (some raw) =>
    match parse raw kr.1 kr.2 with
    | none => .error (.fatal kr.1 raw)
    | some value => .ok (some (ToLower kr.1, value))


/-- The kinds of the values under the keys `unmarshal` and `process` read back:
a string under `query`, a timestamp under `time`, a duration under `query_time`. -/
def TypeInv (r : Record) : Prop :=
  (∀ v, r.get "query".toList = some v → ∃ q, v = Value.string q) ∧
  (∀ v, r.get "time".toList = some v → ∃ t, v = Value.time t) ∧
  (∀ v, r.get "query_time".toList = some v → ∃ d, v = Value.duration d)

/-- The duration under `query_time`, when present, is one a log can yield:
between zero and the greatest `int64`. -/
def DurInv (r : Record) : Prop :=
  ∀ v, r.get "query_time".toList = some v → ∃ d, v = Value.duration d ∧ 0 ≤ d ∧ d < 2 ^ 63

/-- Every key of the record is the lowercase form of a rule name or one of the
derived keys. -/
def KeysAllowed (r : Record) : Prop :=
  ∀ kv ∈ r, (∃ kr ∈ rules, kv.1 = ToLower kr.1) ∨ kv.1 ∈ derivedKeys


/-- The loop invariant of `getQueryType` after the tokens `seen`. -/
def ScanInv (q : Str) (seen : List Str) (st : Int × Str) : Prop :=
  (st = (-1, []) ∧ ∀ op ∈ seen, Index q op < 0) ∨
  (st.2 ∈ seen ∧ st.1 = Index q st.2 ∧ 0 ≤ st.1 ∧
    ∀ op ∈ seen, 0 ≤ Index q op → st.1 ≤ Index q op)

/-- The value under `query`, when present, is a string. -/
def QueryOk (r : Record) : Prop :=
  ∀ v, r.get "query".toList = some v → ∃ q, v = Value.string q

/-! ## Lemmas on strings -/

theorem len_nil : len [] = 0 := rfl

theorem len_cons (c : Char) (s : Str) : len (c :: s) = c.utf8Size + len s := by
  simp [len]

theorem len_append (s t : Str) : len (s ++ t) = len s + len t := by
  simp [len]

theorem index_ge (q tok : Str) : -1 ≤ Index q tok := by
  induction q with
  | nil => simp only [Index]; split <;> omega
  | cons c s ih =>
    simp only [Index]
    split
    · omega
    · split <;> omega

/-- A non-negative `Index` is the offset of an occurrence. -/
theorem index_occurs (q tok : Str) (h : 0 ≤ Index q tok) :
    OccursAt q tok (Index q tok).toNat := by
  induction q with
  | nil =>
    simp only [Index] at h ⊢
    split at h
    · rename_i he
      have : tok = [] := by simpa using he
      subst this
      exact ⟨[], [], by simp, by simp [len]⟩
    · omega
  | cons c s ih =>
    by_cases hp : tok.isPrefixOf (c :: s) = true
    · obtain ⟨suf, hs⟩ := List.isPrefixOf_iff_prefix.mp hp
      have h0 : Index (c :: s) tok = 0 := by simp [Index, hp]
      rw [h0]
      exact ⟨[], suf, by simp [hs], by simp [len]⟩
    · by_cases hi : Index s tok < 0
      · have h1 : Index (c :: s) tok = -1 := by simp [Index, hp, hi]
        omega
      · have h1 : Index (c :: s) tok = Index s tok + c.utf8Size := by
          simp [Index, hp, hi]
        obtain ⟨pre, suf, hq, hl⟩ := ih (by omega)
        refine ⟨c :: pre, suf, by simp [hq], ?_⟩
        rw [len_cons, hl, h1]
        omega

/-- Every occurrence is at or after the offset `Index` returns. -/
theorem index_le_of_occurs (q tok : Str) (off : Nat) (h : OccursAt q tok off) :
    0 ≤ Index q tok ∧ Index q tok ≤ off := by
  induction q generalizing off with
  | nil =>
    obtain ⟨pre, suf, hq, hl⟩ := h
    have h1 : pre = [] ∧ tok = [] ∧ suf = [] := by
      simpa [List.append_eq_nil, and_assoc] using hq.symm
    obtain ⟨rfl, rfl, rfl⟩ := h1
    simp [Index]
  | cons c s ih =>
    obtain ⟨pre, suf, hq, hl⟩ := h
    simp only [Index]
    split
    · omega
    · rename_i hp
      cases pre with
      | nil =>
        exfalso
        apply hp
        apply List.isPrefixOf_iff_prefix.mpr
        exact ⟨suf, by simpa using hq.symm⟩
      | cons d pre =>
        simp only [List.cons_append, List.cons.injEq] at hq
        obtain ⟨rfl, hs⟩ := hq
        rw [len_cons] at hl
        have := ih (len pre) ⟨pre, suf, hs, rfl⟩
        split
        · omega
        · omega

/-! ## Lemmas on the classifier -/

theorem scanOperation_pos (q : Str) (st : Int × Str) (op : Str)
    (h : Index q op ≥ 0 ∧ (Index q op ≤ st.1 ∨ st.1 = -1)) :
    scanOperation q st op = (Index q op, op) := if_pos h

theorem scanOperation_neg (q : Str) (st : Int × Str) (op : Str)
    (h : ¬ (Index q op ≥ 0 ∧ (Index q op ≤ st.1 ∨ st.1 = -1))) :
    scanOperation q st op = st := if_neg h

theorem scanOperation_inv (q : Str) (seen : List Str) (st : Int × Str) (op : Str)
    (h : ScanInv q seen st) : ScanInv q (seen ++ [op]) (scanOperation q st op) := by
  have hge := index_ge q op
  rcases h with ⟨rfl, hneg⟩ | ⟨hmem, heq, hpos, hmin⟩
  · by_cases h0 : 0 ≤ Index q op
    · right
      rw [scanOperation_pos q _ op ⟨h0, Or.inr rfl⟩]
      refine ⟨by simp, rfl, h0, ?_⟩
      intro o ho h1
      rcases List.mem_append.mp ho with ho | ho
      · have := hneg o ho; omega
      · simp at ho; subst ho; exact le_refl _
    · left
      rw [scanOperation_neg q _ op (fun hc => h0 hc.1)]
      refine ⟨rfl, ?_⟩
      intro o ho
      rcases List.mem_append.mp ho with ho | ho
      · exact hneg o ho
      · simp at ho; subst ho; omega
  · right
    by_cases hc : Index q op ≥ 0 ∧ (Index q op ≤ st.1 ∨ st.1 = -1)
    · rw [scanOperation_pos q _ op hc]
      refine ⟨by simp, rfl, hc.1, ?_⟩
      intro o ho h1
      have hle : Index q op ≤ st.1 := by omega
      rcases List.mem_append.mp ho with ho | ho
      · have := hmin o ho h1
        show Index q op ≤ Index q o
        omega
      · simp at ho; subst ho; exact le_refl _
    · rw [scanOperation_neg q _ op hc]
      refine ⟨List.mem_append.mpr (Or.inl hmem), heq, hpos, ?_⟩
      intro o ho h1
      rcases List.mem_append.mp ho with ho | ho
      · exact hmin o ho h1
      · simp at ho; subst ho
        by_contra hlt
        exact hc ⟨h1, Or.inl (by omega)⟩

theorem scan_inv (q : Str) (ops seen : List Str) (st : Int × Str)
    (h : ScanInv q seen st) :
    ScanInv q (seen ++ ops) (ops.foldl (scanOperation q) st) := by
  induction ops generalizing seen st with
  | nil => simpa using h
  | cons op ops ih =>
    have := ih (seen ++ [op]) (scanOperation q st op) (scanOperation_inv q seen st op h)
    simpa using this

theorem scan_operations (q : Str) :
    ScanInv q operations (operations.foldl (scanOperation q) (-1, [])) := by
  have := scan_inv q operations [] (-1, []) (Or.inl ⟨rfl, by simp⟩)
  simpa using this

/-- When no token occurs, the classifier returns the empty string. -/
theorem getQueryType_none (q : Str) (h : ∀ op ∈ operations, Index q op < 0) :
    getQueryType q = [] := by
  unfold getQueryType
  rcases scan_operations q with ⟨he, _⟩ | ⟨hmem, heq, hpos, _⟩
  · simp [he]
  · have := h _ hmem
    omega

/-- When some token occurs, the classifier returns a token of least offset. -/
theorem getQueryType_some (q : Str) (h : ∃ op ∈ operations, 0 ≤ Index q op) :
    getQueryType q ∈ operations ∧ 0 ≤ Index q (getQueryType q) ∧
      ∀ op ∈ operations, 0 ≤ Index q op → Index q (getQueryType q) ≤ Index q op := by
  unfold getQueryType
  rcases scan_operations q with ⟨_, hneg⟩ | ⟨hmem, heq, hpos, hmin⟩
  · obtain ⟨op, hop, h0⟩ := h
    have := hneg op hop
    omega
  · simp only [ge_iff_le, hpos, if_true]
    exact ⟨hmem, by omega, fun op hop h0 => by have := hmin op hop h0; omega⟩

theorem firstMin_none (f : Str → Int) (l : List Str) : firstMin f l = none ↔ l = [] := by
  cases l with
  | nil => simp [firstMin]
  | cons a l =>
    simp only [firstMin]
    split
    · simp
    · split <;> simp

theorem firstMin_some (f : Str → Int) (l : List Str) (a : Str) (h : firstMin f l = some a) :
    a ∈ l ∧ ∀ b ∈ l, f a ≤ f b := by
  induction l generalizing a with
  | nil => simp [firstMin] at h
  | cons x l ih =>
    simp only [firstMin] at h
    split at h
    · rename_i hn
      have hl : l = [] := (firstMin_none f l).mp hn
      subst hl
      simp only [Option.some.injEq] at h
      subst h
      simp
    · rename_i b hb
      obtain ⟨hbm, hbmin⟩ := ih b hb
      split at h
      · rename_i hlt
        simp only [Option.some.injEq] at h
        subst h
        refine ⟨List.mem_cons_of_mem _ hbm, ?_⟩
        intro c hc
        rcases List.mem_cons.mp hc with rfl | hc
        · omega
        · exact hbmin c hc
      · rename_i hlt
        simp only [Option.some.injEq] at h
        subst h
        refine ⟨List.mem_cons_self _ _, ?_⟩
        intro c hc
        rcases List.mem_cons.mp hc with rfl | hc
        · exact le_refl _
        · have := hbmin c hc; omega

theorem operations_ne_nil : ∀ op ∈ operations, op ≠ [] := by decide

theorem operations_prefix_eq :
    ∀ a ∈ operations, ∀ b ∈ operations, a.length ≤ b.length → a.isPrefixOf b = true → a = b := by
  decide

/-- Two vocabulary tokens that are both at the head of one text are equal. -/
theorem operations_head_eq (s a b : Str) (ha : a ∈ operations) (hb : b ∈ operations)
    (hpa : a.isPrefixOf s = true) (hpb : b.isPrefixOf s = true) : a = b := by
  have h1 := List.isPrefixOf_iff_prefix.mp hpa
  have h2 := List.isPrefixOf_iff_prefix.mp hpb
  rcases le_total a.length b.length with hl | hl
  · exact operations_prefix_eq a ha b hb hl
      (List.isPrefixOf_iff_prefix.mpr (List.prefix_of_prefix_length_le h1 h2 hl))
  · exact (operations_prefix_eq b hb a ha hl
      (List.isPrefixOf_iff_prefix.mpr (List.prefix_of_prefix_length_le h2 h1 hl))).symm

/-- No two distinct vocabulary tokens have their first occurrence at one offset. -/
theorem index_no_tie (q a b : Str) (ha : a ∈ operations) (hb : b ∈ operations)
    (h0 : 0 ≤ Index q a) (h : Index q a = Index q b) : a = b := by
  induction q with
  | nil =>
    have hne := operations_ne_nil a ha
    have : Index [] a = -1 := by
      cases a with
      | nil => exact absurd rfl hne
      | cons c t => simp [Index]
    omega
  | cons c s ih =>
    have hc := Char.utf8Size_pos c
    have ga := index_ge s a
    have gb := index_ge s b
    by_cases hpa : a.isPrefixOf (c :: s) = true
    · have e1 : Index (c :: s) a = 0 := by simp [Index, hpa]
      by_cases hpb : b.isPrefixOf (c :: s) = true
      · exact operations_head_eq _ a b ha hb hpa hpb
      · exfalso
        by_cases hi : Index s b < 0
        · have e2 : Index (c :: s) b = -1 := by simp [Index, hpb, hi]
          omega
        · have e2 : Index (c :: s) b = Index s b + c.utf8Size := by simp [Index, hpb, hi]
          omega
    · by_cases hia : Index s a < 0
      · have e1 : Index (c :: s) a = -1 := by simp [Index, hpa, hia]
        omega
      · have e1 : Index (c :: s) a = Index s a + c.utf8Size := by simp [Index, hpa, hia]
        by_cases hpb : b.isPrefixOf (c :: s) = true
        · have e2 : Index (c :: s) b = 0 := by simp [Index, hpb]
          omega
        · by_cases hi : Index s b < 0
          · have e2 : Index (c :: s) b = -1 := by simp [Index, hpb, hi]
            omega
          · have e2 : Index (c :: s) b = Index s b + c.utf8Size := by simp [Index, hpb, hi]
            exact ih (by omega) (by omega)

theorem occursAt_iff (q tok : Str) : (∃ off, OccursAt q tok off) ↔ tok <:+: q := by
  constructor
  · rintro ⟨_, pre, suf, hq, _⟩
    exact ⟨pre, suf, hq.symm⟩
  · rintro ⟨pre, suf, hq⟩
    exact ⟨len pre, pre, suf, hq.symm, rfl⟩

theorem index_nonneg_iff (q tok : Str) : 0 ≤ Index q tok ↔ tok <:+: q := by
  rw [← occursAt_iff]
  constructor
  · intro h
    exact ⟨_, index_occurs q tok h⟩
  · rintro ⟨off, h⟩
    exact (index_le_of_occurs q tok off h).1

/-! ## Theorems on the classifier -/

/-- C4: when at least one vocabulary token occurs in the text, `getQueryType`
returns a vocabulary token that occurs at some offset `off` of the text, and no
vocabulary token occurs anywhere at an offset strictly smaller than `off`. -/
theorem getQueryType_smallest_offset (q : Str)
    (h : ∃ op ∈ operations, op <:+: q) :
    getQueryType q ∈ operations ∧
    ∃ off : Nat, (Index q (getQueryType q) = off) ∧ OccursAt q (getQueryType q) off ∧
      ∀ op ∈ operations, ∀ off2 : Nat, OccursAt q op off2 → off ≤ off2 := by
  obtain ⟨op0, hop0, hin⟩ := h
  obtain ⟨hmem, hpos, hmin⟩ :=
    getQueryType_some q ⟨op0, hop0, (index_nonneg_iff q op0).mpr hin⟩
  refine ⟨hmem, (Index q (getQueryType q)).toNat, by omega, index_occurs _ _ hpos, ?_⟩
  intro op hop off2 hocc
  obtain ⟨h1, h2⟩ := index_le_of_occurs q op off2 hocc
  have := hmin op hop h1
  omega

theorem getQueryType_smallest_offset_witness :
    (∃ op ∈ operations, op <:+: "DROP TABLE t; SELECT 1".toList) ∧
    getQueryType "DROP TABLE t; SELECT 1".toList ∈ operations ∧
    ∃ off : Nat, (Index "DROP TABLE t; SELECT 1".toList
        (getQueryType "DROP TABLE t; SELECT 1".toList) = off) ∧
      OccursAt "DROP TABLE t; SELECT 1".toList
        (getQueryType "DROP TABLE t; SELECT 1".toList) off ∧
      ∀ op ∈ operations, ∀ off2 : Nat,
        OccursAt "DROP TABLE t; SELECT 1".toList op off2 → off ≤ off2 :=
  have h : ∃ op ∈ operations, op <:+: "DROP TABLE t; SELECT 1".toList :=
    ⟨"DROP".toList, by decide, ⟨[], " TABLE t; SELECT 1".toList, by decide⟩⟩
  ⟨h, getQueryType_smallest_offset _ h⟩

/-- C5: `getQueryType` returns the empty string exactly when none of the five
tokens occurs in the text as a case-sensitive substring, and otherwise returns
one of the five tokens; an all-lowercase `select` text is classified as empty. -/
theorem getQueryType_empty_iff (q : Str) :
    (getQueryType q = [] ↔ ∀ op ∈ operations, ¬ op <:+: q) ∧
    (getQueryType q ≠ [] → getQueryType q ∈ operations) ∧
    getQueryType "select * from t".toList = [] := by
  have key : (∀ op ∈ operations, ¬ op <:+: q) ∨ (∃ op ∈ operations, 0 ≤ Index q op) := by
    by_cases hx : ∃ op ∈ operations, 0 ≤ Index q op
    · exact Or.inr hx
    · left
      intro op hop hin
      exact hx ⟨op, hop, (index_nonneg_iff q op).mpr hin⟩
  refine ⟨?_, ?_, by decide!⟩
  · constructor
    · intro he op hop hin
      obtain ⟨hmem, _, _⟩ :=
        getQueryType_some q ⟨op, hop, (index_nonneg_iff q op).mpr hin⟩
      rw [he] at hmem
      exact operations_ne_nil [] hmem rfl
    · intro hnone
      apply getQueryType_none
      intro op hop
      by_contra hlt
      exact hnone op hop ((index_nonneg_iff q op).mp (by omega))
  · intro hne
    rcases key with hnone | hx
    · exfalso
      apply hne
      apply getQueryType_none
      intro op hop
      by_contra hlt
      exact hnone op hop ((index_nonneg_iff q op).mp (by omega))
    · exact (getQueryType_some q hx).1

/-- C6: `getQueryType` equals the reference classifier that picks the smallest
offset and breaks ties by the earliest position in the vocabulary order. -/
theorem getQueryType_eq_reference (q : Str) : getQueryType q = refQueryType q := by
  unfold refQueryType
  split
  · rename_i op hfm
    obtain ⟨hmem, hmin⟩ := firstMin_some _ _ _ hfm
    obtain ⟨hop, h0⟩ := List.mem_filter.mp hmem
    have h0 : 0 ≤ Index q op := by simpa using h0
    obtain ⟨gmem, gpos, gmin⟩ := getQueryType_some q ⟨op, hop, h0⟩
    have h1 := gmin op hop h0
    have h2 := hmin (getQueryType q) (List.mem_filter.mpr ⟨gmem, by simpa using gpos⟩)
    exact index_no_tie q _ _ gmem hop gpos (by omega)
  · rename_i hfm
    have hnil := (firstMin_none _ _).mp hfm
    apply getQueryType_none
    intro op hop
    by_contra hlt
    have : op ∈ operations.filter fun op => 0 ≤ Index q op :=
      List.mem_filter.mpr ⟨hop, by simpa using (by omega : 0 ≤ Index q op)⟩
    rw [hnil] at this
    simp at this

/-! ## Lemmas on records -/

theorem get_set_eq (r : Record) (k : Str) (v : Value) : (r.set k v).get k = some v := by
  induction r with
  | nil => simp [Record.set, Record.get]
  | cons kv r ih =>
    obtain ⟨k', v'⟩ := kv
    by_cases h : k' = k
    · simp [Record.set, Record.get, h]
    · simp [Record.set, Record.get, h, ih]

theorem get_set_ne (r : Record) (k k' : Str) (v : Value) (h : k ≠ k') :
    (r.set k v).get k' = r.get k' := by
  induction r with
  | nil => simp [Record.set, Record.get, h]
  | cons kv r ih =>
    obtain ⟨k0, v0⟩ := kv
    by_cases h0 : k0 = k
    · subst h0
      simp [Record.set, Record.get, h]
    · by_cases h1 : k0 = k'
      · subst h1
        simp [Record.set, Record.get, h0]
      · simp [Record.set, Record.get, h0, h1, ih]

theorem wrapInt64_of_range (x : Int) (h1 : -2 ^ 63 ≤ x) (h2 : x < 2 ^ 63) :
    wrapInt64 x = x := by
  unfold wrapInt64
  have e : (2 : Int) ^ 63 = 9223372036854775808 := by norm_num
  have e2 : (2 : Int) ^ 64 = 18446744073709551616 := by norm_num
  rw [e] at h1 h2 ⊢
  rw [e2]
  omega

theorem len_ascii (q : Str) (h : ∀ c ∈ q, c.toNat < 128) : len q = q.length := by
  induction q with
  | nil => rfl
  | cons c s ih =>
    have hc : c.toNat < 128 := h c (List.mem_cons_self _ _)
    have h1 : c.utf8Size = 1 := by
      have : c.val ≤ 127 := by
        rw [UInt32.le_def]
        have : c.val.toNat < 128 := hc
        show c.val.val ≤ (127 : UInt32).val
        exact Fin.le_def.mpr (by
          have h3 : (c.val.val : Nat) < 128 := this
          have h4 : ((127 : UInt32).val : Nat) = 127 := rfl
          omega)
      simp [Char.utf8Size, this]
    rw [len_cons, h1, ih (fun d hd => h d (List.mem_cons_of_mem _ hd))]
    simp [Nat.add_comm]

/-! ## Theorems on the finalizer -/

theorem process_ok_iff (r : Record) :
    (process r).2 = true ↔ ∃ t, r.get "time".toList = some (.time t) := by
  unfold process
  split
  · rename_i t ht
    exact ⟨fun _ => ⟨t, ht⟩, fun _ => rfl⟩
  · rename_i hn
    constructor
    · intro h; simp at h
    · rintro ⟨t, ht⟩
      exact absurd ht (hn t)

/-- The record `process` returns when it accepts: the start time is stored when a
duration is present, then the query fields when a query text is present. -/
theorem process_accept (r : Record) (t : Int)
    (ht : r.get "time".toList = some (.time t)) :
    process r =
      ((match (match r.get "query_time".toList with
            | some (.duration d) =>
              r.set "time_start".toList (.time (timeAdd t (wrapInt64 (d * -1))))
            | _ => r).get "query".toList with
        | some (.string q) =>
          ((match r.get "query_time".toList with
            | some (.duration d) =>
              r.set "time_start".toList (.time (timeAdd t (wrapInt64 (d * -1))))
            | _ => r).set "query_length".toList (.int (len q))).set
              "query_type".toList (.string (getQueryType q))
        | _ =>
          (match r.get "query_time".toList with
            | some (.duration d) =>
              r.set "time_start".toList (.time (timeAdd t (wrapInt64 (d * -1))))
            | _ => r)), true) := by
  unfold process
  rw [ht]

/-- The query fields `process` stores on a record holding a query text. -/
theorem process_fields_get (r0 : Record) (k : Str)
    (h1 : "query_length".toList ≠ k) (h2 : "query_type".toList ≠ k) :
    (match r0.get "query".toList with
      | some (.string q) =>
        (r0.set "query_length".toList (.int (len q))).set
          "query_type".toList (.string (getQueryType q))
      | _ => r0).get k = r0.get k := by
  split
  · rw [get_set_ne _ _ _ _ h2, get_set_ne _ _ _ _ h1]
  · rfl

/-- C2 (as amended): `process` rejects a record exactly when it holds no
timestamp under `time`; whether `query_time` is present plays no part, and of
two consecutive `# Time: ` blocks of which the first has no `Query_time`
annotation both reach the output. -/
theorem process_rejects_iff (r : Record) :
    ((process r).2 = false ↔ ¬ ∃ t, r.get "time".toList = some (.time t)) ∧
    RunRecords (wholeLines twoBlocks) = .ok
      [[("time".toList, Value.time (Date 2023 1 1 10 0 0 0))],
       [("time".toList, Value.time (Date 2023 1 1 10 0 5 0)),
        ("query_time".toList, Value.duration 2500000000),
        ("time_start".toList, Value.time (Date 2023 1 1 10 0 2 500000000))]] := by
  refine ⟨?_, by decide!⟩
  rw [← process_ok_iff]
  simp

/-- C2 (counterexample): a record with `time` and without `query_time` is
accepted, and of two consecutive `# Time: ` blocks of which the first has no
`Query_time` annotation both reach the output. -/
theorem process_accepts_without_query_time :
    Record.get [("time".toList, Value.time 0)] "query_time".toList = none ∧
    (process [("time".toList, Value.time 0)]).2 = true ∧
    RunRecords (wholeLines twoBlocks) =
      .ok [[("time".toList, Value.time 1672567200000000000)],
        [("time".toList, Value.time 1672567205000000000),
         ("query_time".toList, Value.duration 2500000000),
         ("time_start".toList, Value.time 1672567202500000000)]] := by
  decide!

/-- On a record with a timestamp under `time` and a duration under `query_time`
other than the least `int64`, `process` accepts, stores exactly
`time - query_time` under `time_start`, and leaves `time` and `query_time`
unchanged. -/
theorem process_time_start_of_range (r : Record) (t d : Int)
    (ht : r.get "time".toList = some (.time t))
    (hd : r.get "query_time".toList = some (.duration d))
    (h1 : -2 ^ 63 < d) (h2 : d < 2 ^ 63) :
    (process r).2 = true ∧
    (process r).1.get "time_start".toList = some (.time (t - d)) ∧
    (process r).1.get "time".toList = some (.time t) ∧
    (process r).1.get "query_time".toList = some (.duration d) := by
  have hw : wrapInt64 (d * -1) = -d := by
    rw [wrapInt64_of_range] <;> omega
  rw [process_accept r t ht, hd]
  refine ⟨rfl, ?_, ?_, ?_⟩
  · show Record.get (match Record.get _ _ with
        | some (.string q) => _
        | _ => _) _ = _
    rw [process_fields_get _ _ (by decide) (by decide), get_set_eq, hw]
    simp only [timeAdd]
    congr 2
  · show Record.get (match Record.get _ _ with
        | some (.string q) => _
        | _ => _) _ = _
    rw [process_fields_get _ _ (by decide) (by decide), get_set_ne _ _ _ _ (by decide), ht]
  · show Record.get (match Record.get _ _ with
        | some (.string q) => _
        | _ => _) _ = _
    rw [process_fields_get _ _ (by decide) (by decide), get_set_ne _ _ _ _ (by decide), hd]

theorem process_time_start_of_range_example :
    (-2 ^ 63 < (2500000000 : Int) ∧ (2500000000 : Int) < 2 ^ 63) ∧
    (process [("time".toList, Value.time 1672567200000000000),
        ("query_time".toList, Value.duration 2500000000)]).2 = true ∧
    (process [("time".toList, Value.time 1672567200000000000),
        ("query_time".toList, Value.duration 2500000000)]).1.get "time_start".toList =
      some (.time (1672567200000000000 - 2500000000)) ∧
    (process [("time".toList, Value.time 1672567200000000000),
        ("query_time".toList, Value.duration 2500000000)]).1.get "time".toList =
      some (.time 1672567200000000000) ∧
    (process [("time".toList, Value.time 1672567200000000000),
        ("query_time".toList, Value.duration 2500000000)]).1.get "query_time".toList =
      some (.duration 2500000000) :=
  ⟨by decide, process_time_start_of_range _ 1672567200000000000 2500000000 (by decide!) (by decide!)
    (by decide) (by decide)⟩

/-- The bound of `process_time_start_of_range` is sharp: for the least `int64`
duration, which no log yields, the product `queryTime * -1` wraps to itself. -/
theorem process_time_start_min_duration :
    (process [("time".toList, Value.time 0),
        ("query_time".toList, Value.duration (-9223372036854775808))]).2 = true ∧
    (process [("time".toList, Value.time 0),
        ("query_time".toList, Value.duration (-9223372036854775808))]).1.get
        "time_start".toList = some (.time (-9223372036854775808)) ∧
    (process [("time".toList, Value.time 0),
        ("query_time".toList, Value.duration (-9223372036854775808))]).1.get
        "time_start".toList ≠ some (.time (0 - (-9223372036854775808))) := by
  decide!

/-- C7 (as amended): on a record with a timestamp under `time` whose `query`
field holds a string `q`, `process` stores the number of bytes of `q` under
`query_length` (the number of characters when `q` is ASCII) and
`getQueryType q` under `query_type`; when no `query` field is present neither
field is added or changed. -/
theorem process_query_fields (r : Record) :
    (∀ t q, r.get "time".toList = some (.time t) →
      r.get "query".toList = some (.string q) →
      (process r).1.get "query_length".toList = some (.int (len q)) ∧
      (process r).1.get "query_type".toList = some (.string (getQueryType q)) ∧
      ((∀ c ∈ q, c.toNat < 128) → len q = q.length)) ∧
    (r.get "query".toList = none →
      (process r).1.get "query_length".toList = r.get "query_length".toList ∧
      (process r).1.get "query_type".toList = r.get "query_type".toList) := by
  constructor
  · intro t q ht hq
    have hq2 : (match r.get "query_time".toList with
        | some (.duration d) =>
          r.set "time_start".toList (.time (timeAdd t (wrapInt64 (d * -1))))
        | _ => r).get "query".toList = some (.string q) := by
      split
      · rw [get_set_ne _ _ _ _ (by decide), hq]
      · exact hq
    rw [process_accept r t ht]
    simp only [hq2]
    refine ⟨?_, ?_, len_ascii q⟩
    · rw [get_set_ne _ _ _ _ (by decide), get_set_eq]
    · rw [get_set_eq]
  · intro hq
    unfold process
    split
    · rename_i t ht
      have hq2 : (match r.get "query_time".toList with
          | some (.duration d) =>
            r.set "time_start".toList (.time (timeAdd t (wrapInt64 (d * -1))))
          | _ => r).get "query".toList = none := by
        split
        · rw [get_set_ne _ _ _ _ (by decide), hq]
        · exact hq
      simp only [hq2]
      constructor
      · split
        · rw [get_set_ne _ _ _ _ (by decide)]
        · rfl
      · split
        · rw [get_set_ne _ _ _ _ (by decide)]
        · rfl
    · exact ⟨rfl, rfl⟩

theorem process_query_fields_witness :
    (process [("time".toList, Value.time 0), ("query".toList, Value.string "DROP é".toList)]).1.get
        "query_length".toList = some (.int (len "DROP é".toList)) ∧
    (process [("time".toList, Value.time 0), ("query".toList, Value.string "DROP é".toList)]).1.get
        "query_type".toList = some (.string (getQueryType "DROP é".toList)) ∧
    ((process [("time".toList, Value.time 0)]).1.get "query_length".toList =
        Record.get [("time".toList, Value.time 0)] "query_length".toList ∧
      (process [("time".toList, Value.time 0)]).1.get "query_type".toList =
        Record.get [("time".toList, Value.time 0)] "query_type".toList) :=
  ⟨((process_query_fields _).1 0 "DROP é".toList (by decide) (by decide)).1,
    ((process_query_fields _).1 0 "DROP é".toList (by decide) (by decide)).2.1,
    (process_query_fields [("time".toList, Value.time 0)]).2 (by decide)⟩

/-- C7 (counterexample): for the one-character text `é` the stored
`query_length` is 2, its number of bytes; and a record without `time` gets no
`query_length` although it holds a query text. -/
theorem process_query_length_bytes :
    "é".toList.length = 1 ∧
    (process [("time".toList, Value.time 0), ("query".toList, Value.string "é".toList)]).1.get
        "query_length".toList = some (.int 2) ∧
    (process [("query".toList, Value.string "a".toList)]).1.get "query_length".toList = none := by
  decide!

/-! ## Lemmas on the reading loop -/

theorem process_nil : process [] = ([], false) := rfl

theorem accepted_nil : accepted [] = [] := rfl

theorem accepted_cons (r : Record) (rs : List Record) :
    accepted (r :: rs) =
      (if (process r).2 then [(process r).1] else []) ++ accepted rs := by
  unfold accepted
  by_cases h : (process r).2 = true
  · simp [List.filterMap_cons, h]
  · simp [List.filterMap_cons, h]

theorem flush_eq (record : Record) (records : List Record) :
    flush record records = records ++ (if (process record).2 then [(process record).1] else []) := by
  unfold flush
  by_cases h : (process record).2 = true
  · simp [h]
  · simp [h]

theorem wholeLines_cons (l : Str) (ls : List Str) :
    wholeLines (l :: ls) = (l, false) :: wholeLines ls := rfl

theorem RunLoop_whole_cons (l : Str) (rest : List (Str × Bool)) (line : Str) (record : Record)
    (records : List Record) :
    RunLoop ((l, false) :: rest) line record records =
      match unmarshal l (if isMarker l then [] else record) with
      | .error e => .error e
      | .ok r1 =>
        RunLoop rest l r1
          (if isMarker l then (if record.length > 0 then flush record records else records)
            else records) := by
  simp only [RunLoop, Bool.false_eq_true, if_false]

/-- The loop on whole lines, from any state, in terms of the blocks of the
remaining lines: the current record takes the lines up to the next marker. -/
theorem RunLoop_wholeLines (ls : List Str) (line : Str) (record : Record)
    (records : List Record) :
    RunLoop (wholeLines ls) line record records =
      match buildRecord (splitBlocks ls).1 record with
      | .error e => .error e
      | .ok r0 =>
        match buildAll (splitBlocks ls).2 with
        | .error e => .error e
        | .ok rs => .ok (records ++ accepted (r0 :: rs)) := by
  induction ls generalizing line record records with
  | nil =>
    simp [wholeLines, RunLoop, splitBlocks, buildRecord, buildAll, flush_eq, accepted_cons,
      accepted_nil]
  | cons l ls ih =>
    rw [wholeLines_cons, RunLoop_whole_cons]
    by_cases hm : isMarker l = true
    · have hs : splitBlocks (l :: ls) =
          ([], (l :: (splitBlocks ls).1) :: (splitBlocks ls).2) := by
        simp [splitBlocks, hm]
      rw [hs]
      simp only [hm, if_true, buildRecord, buildAll]
      cases hu : unmarshal l [] with
      | error e => rfl
      | ok r1 =>
        simp only []
        rw [ih]
        cases buildRecord (splitBlocks ls).1 r1 with
        | error e => rfl
        | ok r0 =>
          simp only []
          cases buildAll (splitBlocks ls).2 with
          | error e => rfl
          | ok rs =>
            simp only []
            congr 1
            rw [accepted_cons record, ← List.append_assoc]
            congr 1
            by_cases hl : record.length > 0
            · simp only [hl, if_true, flush_eq]
            · have hr : record = [] := by
                cases record with
                | nil => rfl
                | cons a b => simp at hl
              subst hr
              simp [process_nil]
    · have hs : splitBlocks (l :: ls) = (l :: (splitBlocks ls).1, (splitBlocks ls).2) := by
        simp [splitBlocks, hm]
      rw [hs]
      have hm2 : isMarker l = false := by simpa using hm
      simp only [hm2, Bool.false_eq_true, if_false, buildRecord]
      cases hu : unmarshal l record with
      | error e => rfl
      | ok r1 =>
        simp only []
        rw [ih]

/-- On whole lines the loop of `Run` and the reference agree, failures included. -/
theorem RunRecords_eq_reference (ls : List Str) :
    RunRecords (wholeLines ls) = reference ls := by
  unfold RunRecords reference
  rw [RunLoop_wholeLines]
  simp only [buildAll]
  cases buildRecord (splitBlocks ls).1 [] with
  | error e => rfl
  | ok r0 =>
    simp only []
    cases buildAll (splitBlocks ls).2 with
    | error e => rfl
    | ok rs => simp

/-! ## Lemmas on the record builder -/

theorem rules_compiled : ∀ kr ∈ rules, (regexps.lookup kr.1).isSome = true := by
  decide!

theorem rules_lower_ne_query : ∀ kr ∈ rules, ToLower kr.1 ≠ "query".toList := by
  decide!

theorem queryOk_nil : QueryOk [] := by
  intro v h
  simp [Record.get] at h

theorem applyRule_ok (l : Str) (r : Record) (kr : Str × Str) (hk : kr ∈ rules)
    (hc : Coercible l) (hq : QueryOk r) :
    ∃ r', applyRule regexps l r kr = .ok r' ∧ QueryOk r' := by
  have h1 := rules_compiled kr hk
  obtain ⟨re, hre⟩ := Option.isSome_iff_exists.mp h1
  have hm : match_ regexps l kr.1 = .ok (re.FindStringSubmatch l) := by
    simp [match_, hre]
  unfold applyRule
  rw [hm]
  cases hf : re.FindStringSubmatch l with
  | none => exact ⟨r, rfl, hq⟩
  | some raw =>
    simp only []
    have hp := hc kr hk raw (by rw [hm, hf])
    cases hv : parse raw kr.1 kr.2 with
    | none => exact absurd hv hp
    | some value =>
      refine ⟨_, rfl, ?_⟩
      intro v hv2
      rw [get_set_ne _ _ _ _ (rules_lower_ne_query kr hk)] at hv2
      exact hq v hv2

theorem scanRules_ok (l : Str) (rs : List (Str × Str)) (r : Record)
    (hrs : ∀ kr ∈ rs, kr ∈ rules) (hc : Coercible l) (hq : QueryOk r) :
    ∃ r', scanRules regexps l rs r = .ok r' ∧ QueryOk r' := by
  induction rs generalizing r with
  | nil => exact ⟨r, rfl, hq⟩
  | cons kr rs ih =>
    obtain ⟨r1, h1, hq1⟩ := applyRule_ok l r kr (hrs kr (List.mem_cons_self _ _)) hc hq
    obtain ⟨r2, h2, hq2⟩ := ih r1 (fun k hk => hrs k (List.mem_cons_of_mem _ hk)) hq1
    refine ⟨r2, ?_, hq2⟩
    simp only [scanRules, h1, h2]

theorem unmarshal_ok (l : Str) (r : Record) (hc : Coercible l) (hq : QueryOk r) :
    ∃ r', unmarshal l r = .ok r' ∧ QueryOk r' := by
  unfold unmarshal unmarshalWith
  split
  · split
    · rename_i q hg
      refine ⟨_, rfl, ?_⟩
      intro v hv
      rw [get_set_eq] at hv
      exact ⟨_, (Option.some.inj hv).symm⟩
    · rename_i v hns hg
      obtain ⟨q, hv⟩ := hq v hg
      exact absurd hv (hns q)
    · apply scanRules_ok l rules _ (fun _ h => h) hc
      intro v hv
      rw [get_set_eq] at hv
      exact ⟨_, (Option.some.inj hv).symm⟩
  · exact scanRules_ok l rules r (fun _ h => h) hc hq

theorem buildRecord_ok (ls : List Str) (r : Record) (hc : ∀ l ∈ ls, Coercible l)
    (hq : QueryOk r) : ∃ r', buildRecord ls r = .ok r' := by
  induction ls generalizing r with
  | nil => exact ⟨r, rfl⟩
  | cons l ls ih =>
    obtain ⟨r1, h1, hq1⟩ := unmarshal_ok l r (hc l (List.mem_cons_self _ _)) hq
    obtain ⟨r2, h2⟩ := ih r1 (fun k hk => hc k (List.mem_cons_of_mem _ hk)) hq1
    exact ⟨r2, by simp only [buildRecord, h1, h2]⟩

theorem buildAll_ok (bs : List (List Str)) (hc : ∀ b ∈ bs, ∀ l ∈ b, Coercible l) :
    ∃ rs, buildAll bs = .ok rs := by
  induction bs with
  | nil => exact ⟨[], rfl⟩
  | cons b bs ih =>
    obtain ⟨r, hr⟩ := buildRecord_ok b [] (hc b (List.mem_cons_self _ _)) queryOk_nil
    obtain ⟨rs, hrs⟩ := ih (fun c hcm => hc c (List.mem_cons_of_mem _ hcm))
    exact ⟨r :: rs, by simp only [buildAll, hr, hrs]⟩

theorem splitBlocks_mem (ls : List Str) :
    (∀ l ∈ (splitBlocks ls).1, l ∈ ls) ∧ (∀ b ∈ (splitBlocks ls).2, ∀ l ∈ b, l ∈ ls) := by
  induction ls with
  | nil => simp [splitBlocks]
  | cons x ls ih =>
    obtain ⟨ih1, ih2⟩ := ih
    by_cases hm : isMarker x = true
    · have hs : splitBlocks (x :: ls) =
          ([], (x :: (splitBlocks ls).1) :: (splitBlocks ls).2) := by
        simp [splitBlocks, hm]
      rw [hs]
      constructor
      · intro l hl
        simp at hl
      · intro b hb l hl
        rcases List.mem_cons.mp hb with rfl | hb
        · rcases List.mem_cons.mp hl with rfl | hl
          · exact List.mem_cons_self _ _
          · exact List.mem_cons_of_mem _ (ih1 l hl)
        · exact List.mem_cons_of_mem _ (ih2 b hb l hl)
    · have hs : splitBlocks (x :: ls) = (x :: (splitBlocks ls).1, (splitBlocks ls).2) := by
        simp [splitBlocks, hm]
      rw [hs]
      constructor
      · intro l hl
        rcases List.mem_cons.mp hl with rfl | hl
        · exact List.mem_cons_self _ _
        · exact List.mem_cons_of_mem _ (ih1 l hl)
      · intro b hb l hl
        exact List.mem_cons_of_mem _ (ih2 b hb l hl)

theorem reference_ok (ls : List Str) (hc : ∀ l ∈ ls, Coercible l) :
    ∃ rs, reference ls = .ok rs := by
  obtain ⟨h1, h2⟩ := splitBlocks_mem ls
  obtain ⟨rs, hrs⟩ := buildAll_ok ((splitBlocks ls).1 :: (splitBlocks ls).2) (by
    intro b hb l hl
    rcases List.mem_cons.mp hb with rfl | hb
    · exact hc l (h1 l hl)
    · exact hc l (h2 b hb l hl))
  exact ⟨accepted rs, by simp only [reference, hrs]⟩

/-! ## Theorems on the reading loop -/

/-- For every sequence of lines the reader returns whole on which every coercion
succeeds, the loop of `Run` returns a list of records, and it is the list of
the reference: the blocks split at the marker lines, each built by `unmarshal`
from the empty record, each processed, the accepted ones kept in order. -/
theorem RunRecords_reference (ls : List Str) (hc : ∀ l ∈ ls, Coercible l) :
    ∃ rs, RunRecords (wholeLines ls) = .ok rs ∧ reference ls = .ok rs := by
  obtain ⟨rs, hrs⟩ := reference_ok ls hc
  exact ⟨rs, by rw [RunRecords_eq_reference, hrs], hrs⟩

theorem coercible_sound (l : Str) (h : coercible l = true) : Coercible l := by
  intro kr hk raw hm
  have := (List.all_eq_true.mp h) kr hk
  rw [hm] at this
  simp only [] at this
  intro hn
  rw [hn] at this
  simp at this

theorem RunRecords_reference_witness :
    (∀ l ∈ example2, Coercible l) ∧
    ∃ rs, RunRecords (wholeLines example2) = .ok rs ∧ reference example2 = .ok rs :=
  have h : ∀ l ∈ example2, Coercible l := fun l hl =>
    coercible_sound l ((by decide! : ∀ l ∈ example2, coercible l = true) l hl)
  ⟨h, RunRecords_reference example2 h⟩

/-- C8 (as amended): on the three lines of the example the loop of `Run`
yields exactly one accepted record, with `time_start` the instant
2023-01-01 09:59:57.5, `query_type` the token `SELECT` and `query_length` 16. -/
theorem example1_records :
    RunRecords (wholeLines example1) = .ok [example1Record] ∧
    reference example1 = .ok [example1Record] ∧
    example1Record.get "time_start".toList = some (.time (Date 2023 1 1 9 59 57 500000000)) ∧
    example1Record.get "query_type".toList = some (.string "SELECT".toList) ∧
    example1Record.get "query_length".toList = some (.int 16) := by
  decide!

/-- C8 (counterexample): the record of the example has `query_length` 16, the
sixteen characters of `SELECT * FROM t;`, and not 17. -/
theorem example1_query_length_not_17 :
    ∃ r, RunRecords (wholeLines example1) = .ok [r] ∧
      r.get "query_length".toList = some (.int 16) ∧
      r.get "query_length".toList ≠ some (.int 17) :=
  ⟨example1Record, by decide!, by decide!, by decide!⟩

/-! ## Theorems on the record builder -/

theorem find_none_of_plain (re : Regexp) (l : Str) (h : HasPrefix l "# ".toList = false) :
    re.FindStringSubmatch l = none := by
  unfold Regexp.FindStringSubmatch
  split
  · rename_i rest
    simp [HasPrefix, List.isPrefixOf] at h
  · rfl

theorem applyRule_plain (l : Str) (r : Record) (kr : Str × Str) (hk : kr ∈ rules)
    (h : HasPrefix l "# ".toList = false) : applyRule regexps l r kr = .ok r := by
  obtain ⟨re, hre⟩ := Option.isSome_iff_exists.mp (rules_compiled kr hk)
  have hm : match_ regexps l kr.1 = .ok none := by
    simp [match_, hre, find_none_of_plain re l h]
  unfold applyRule
  rw [hm]

theorem scanRules_plain (l : Str) (rs : List (Str × Str)) (r : Record)
    (hrs : ∀ kr ∈ rs, kr ∈ rules) (h : HasPrefix l "# ".toList = false) :
    scanRules regexps l rs r = .ok r := by
  induction rs with
  | nil => rfl
  | cons kr rs ih =>
    simp only [scanRules, applyRule_plain l r kr (hrs kr (List.mem_cons_self _ _)) h]
    exact ih (fun k hk => hrs k (List.mem_cons_of_mem _ hk))

theorem unmarshal_plain_first (l : Str) (r : Record) (h : HasPrefix l "# ".toList = false)
    (hr : r.get "query".toList = none) :
    unmarshal l r = .ok (r.set "query".toList (.string l)) := by
  unfold unmarshal unmarshalWith
  simp only [h, Bool.not_false, if_true, hr]
  exact scanRules_plain l rules _ (fun _ hk => hk) h

theorem unmarshal_plain_next (l q : Str) (r : Record) (h : HasPrefix l "# ".toList = false)
    (hr : r.get "query".toList = some (.string q)) :
    unmarshal l r = .ok (r.set "query".toList (.string (q ++ l))) := by
  unfold unmarshal unmarshalWith
  simp only [h, Bool.not_false, if_true, hr]

theorem buildRecord_plain (ls : List Str) (q : Str) (r : Record)
    (hl : ∀ l ∈ ls, HasPrefix l "# ".toList = false)
    (hr : r.get "query".toList = some (.string q)) :
    ∃ r', buildRecord ls r = .ok r' ∧
      r'.get "query".toList = some (.string (q ++ ls.flatten)) := by
  induction ls generalizing q r with
  | nil => exact ⟨r, rfl, by simpa using hr⟩
  | cons l ls ih =>
    have h1 := unmarshal_plain_next l q r (hl l (List.mem_cons_self _ _)) hr
    obtain ⟨r', h2, h3⟩ := ih (q ++ l) (r.set "query".toList (.string (q ++ l)))
      (fun k hk => hl k (List.mem_cons_of_mem _ hk)) (get_set_eq _ _ _)
    refine ⟨r', by simp only [buildRecord, h1, h2], ?_⟩
    rw [h3]
    simp

/-- C9: for a non-empty sequence of lines none of which begins with `# `,
applying `unmarshal` to them in order on a record without a `query` field
succeeds and leaves under `query` the concatenation of the lines in order,
with no separator. -/
theorem unmarshal_query_concat (ls : List Str) (r : Record) (hne : ls ≠ [])
    (hl : ∀ l ∈ ls, HasPrefix l "# ".toList = false)
    (hr : r.get "query".toList = none) :
    ∃ r', buildRecord ls r = .ok r' ∧
      r'.get "query".toList = some (.string ls.flatten) := by
  cases ls with
  | nil => exact absurd rfl hne
  | cons l ls =>
    have h1 := unmarshal_plain_first l r (hl l (List.mem_cons_self _ _)) hr
    obtain ⟨r', h2, h3⟩ := buildRecord_plain ls l (r.set "query".toList (.string l))
      (fun k hk => hl k (List.mem_cons_of_mem _ hk)) (get_set_eq _ _ _)
    refine ⟨r', by simp only [buildRecord, h1, h2], ?_⟩
    rw [h3]
    simp

theorem unmarshal_query_concat_witness :
    (["SELECT *".toList, " FROM t".toList, " WHERE a = 1;".toList] ≠ [] ∧
      (∀ l ∈ ["SELECT *".toList, " FROM t".toList, " WHERE a = 1;".toList],
        HasPrefix l "# ".toList = false) ∧
      Record.get [("time".toList, Value.time 0)] "query".toList = none) ∧
    ∃ r', buildRecord ["SELECT *".toList, " FROM t".toList, " WHERE a = 1;".toList]
        [("time".toList, Value.time 0)] = .ok r' ∧
      r'.get "query".toList = some (.string
        ["SELECT *".toList, " FROM t".toList, " WHERE a = 1;".toList].flatten) :=
  ⟨⟨by decide, by decide, by decide⟩,
    unmarshal_query_concat _ _ (by decide) (by decide) (by decide)⟩

/-- The loop of `Run` never reads the variable `line` it starts from. -/
theorem RunLoop_line (input : List (Str × Bool)) (line line2 : Str) (record : Record)
    (records : List Record) :
    RunLoop input line record records = RunLoop input line2 record records := by
  induction input generalizing line line2 record records with
  | nil => rfl
  | cons ev rest ih =>
    obtain ⟨data, isPre⟩ := ev
    cases isPre with
    | true =>
      simp only [RunLoop, if_true]
      exact ih _ _ _ _
    | false =>
      simp only [RunLoop_whole_cons]

/-- The pieces flagged `isPrefix` are dropped: the line handed to the marker
test and to `unmarshal` is the last piece alone. -/
theorem RunLoop_fragments (pieces : List Str) (last : Str) (rest : List (Str × Bool))
    (line : Str) (record : Record) (records : List Record) :
    RunLoop ((pieces.map fun p => (p, true)) ++ (last, false) :: rest) line record records =
      RunLoop ((last, false) :: rest) line record records := by
  induction pieces generalizing line with
  | nil => rfl
  | cons p ps ih =>
    have e : RunLoop (((p :: ps).map fun p => (p, true)) ++ (last, false) :: rest) line record
        records = RunLoop ((ps.map fun p => (p, true)) ++ (last, false) :: rest) (line ++ p)
        record records := by
      simp only [List.map_cons, List.cons_append, RunLoop, if_true]
      rfl
    rw [e, ih]
    exact RunLoop_line _ _ _ _ _

/-- C10 (the code at the failing input): when the reader returns the line
`# Time: 230101 10:00:00` in two pieces, the loop of `Run` handles the input as
if the line were its last piece `10:00:00` alone, and no record is emitted,
while the same log read in whole lines yields one record. -/
theorem RunRecords_fragmented :
    RunRecords fragmented =
      RunRecords (wholeLines ("10:00:00".toList :: fragmentedLines.tail)) ∧
    RunRecords fragmented = .ok [] ∧
    (RunRecords (wholeLines fragmentedLines)).map List.length = .ok 1 := by
  decide!

/-! ## Theorems on the coercer -/

theorem parse_bool_eq (raw key : Str) :
    parse raw key "bool".toList =
      if raw = "Yes".toList then some (.bool true)
      else if raw = "No".toList then some (.bool false)
      else none := rfl

theorem parse_int_eq (raw key : Str) :
    parse raw key "int".toList = (ParseInt raw).map Value.int64 := rfl

theorem parse_datetime_eq (raw key : Str) :
    parse raw key "datetime".toList = (Parse raw).map Value.time := rfl

theorem parse_time_eq (raw key : Str) :
    parse raw key "time".toList = (ParseDuration (raw ++ "s".toList)).map Value.duration := rfl

theorem parse_string_eq (raw key : Str) :
    parse raw key "string".toList = some (.string raw) := rfl

/-- C11: boolean coercion gives `true` exactly for the token `Yes`, `false`
exactly for the token `No`, and an error for every other token, among them
`yes`, `NO`, `Maybe` and the empty string. -/
theorem parse_bool (raw key : Str) :
    (parse raw key "bool".toList = some (.bool true) ↔ raw = "Yes".toList) ∧
    (parse raw key "bool".toList = some (.bool false) ↔ raw = "No".toList) ∧
    (parse raw key "bool".toList = none ↔ (raw ≠ "Yes".toList ∧ raw ≠ "No".toList)) ∧
    parse "yes".toList key "bool".toList = none ∧
    parse "NO".toList key "bool".toList = none ∧
    parse "Maybe".toList key "bool".toList = none ∧
    parse [] key "bool".toList = none := by
  rw [parse_bool_eq]
  refine ⟨?_, ?_, ?_, rfl, rfl, rfl, rfl⟩
  · by_cases h1 : raw = "Yes".toList
    · rw [if_pos h1]; exact ⟨fun _ => h1, fun _ => rfl⟩
    · rw [if_neg h1]
      by_cases h2 : raw = "No".toList
      · rw [if_pos h2]
        exact ⟨fun h => (by cases h), fun h => absurd h h1⟩
      · rw [if_neg h2]
        exact ⟨fun h => (by cases h), fun h => absurd h h1⟩
  · by_cases h1 : raw = "Yes".toList
    · rw [if_pos h1]
      constructor
      · intro h; cases h
      · intro h2
        rw [h1] at h2
        exact absurd h2 (by decide)
    · rw [if_neg h1]
      by_cases h2 : raw = "No".toList
      · rw [if_pos h2]; exact ⟨fun _ => h2, fun _ => rfl⟩
      · rw [if_neg h2]
        exact ⟨fun h => (by cases h), fun h => absurd h h2⟩
  · by_cases h1 : raw = "Yes".toList
    · rw [if_pos h1]
      exact ⟨fun h => (by cases h), fun h => absurd h1 h.1⟩
    · rw [if_neg h1]
      by_cases h2 : raw = "No".toList
      · rw [if_pos h2]
        exact ⟨fun h => (by cases h), fun h => absurd h2 h.2⟩
      · rw [if_neg h2]
        exact ⟨fun _ => ⟨h1, h2⟩, fun _ => rfl⟩

theorem isDigit_not_sign (c : Char) (h : isDigit c = true) : c ≠ '-' ∧ c ≠ '+' := by
  constructor
  · rintro rfl
    exact absurd h (by decide)
  · rintro rfl
    exact absurd h (by decide)

/-- `ParseInt` on a non-empty string of digits: its value when below `2^63`. -/
theorem ParseInt_digits (raw : Str) (hne : raw ≠ []) (hd : raw.all isDigit = true) :
    ParseInt raw = if decimal raw ≥ 2 ^ 63 then none else some (decimal raw : Int) := by
  cases raw with
  | nil => exact absurd rfl hne
  | cons c t =>
    have hc : isDigit c = true := by
      simp only [List.all_cons, Bool.and_eq_true] at hd
      exact hd.1
    obtain ⟨h1, h2⟩ := isDigit_not_sign c hc
    unfold ParseInt
    split
    · rename_i t2 heq
      simp only [List.cons.injEq] at heq
      exact absurd heq.1 h1
    · rename_i t2 heq
      simp only [List.cons.injEq] at heq
      exact absurd heq.1 h2
    · simp only [hd, Bool.not_true, Bool.false_eq_true, if_false]
      rw [if_neg (by simp)]
      rfl

/-- `ParseInt` fails on a text with a character that is neither a digit nor a
leading sign. -/
theorem ParseInt_nondigit (raw : Str)
    (h : (∃ c ∈ raw.tail, isDigit c = false) ∨
      (∃ c rest, raw = c :: rest ∧ isDigit c = false ∧ c ≠ '+' ∧ c ≠ '-') ∨ raw = []) :
    ParseInt raw = none := by
  unfold ParseInt
  split
  · rename_i t
    rcases h with ⟨c, hc, hd⟩ | ⟨c, rest, he, _, _, hm⟩ | he
    · have hall : t.all isDigit = false := by
        rw [List.all_eq_false]
        exact ⟨c, hc, by simp [hd]⟩
      by_cases ht : t = []
      · simp [ht]
      · simp [ht, hall]
    · simp only [List.cons.injEq] at he
      exact absurd he.1.symm hm
    · cases he
  · rename_i t
    rcases h with ⟨c, hc, hd⟩ | ⟨c, rest, he, _, hp, _⟩ | he
    · have hall : t.all isDigit = false := by
        rw [List.all_eq_false]
        exact ⟨c, hc, by simp [hd]⟩
      by_cases ht : t = []
      · simp [ht]
      · simp [ht, hall]
    · simp only [List.cons.injEq] at he
      exact absurd he.1.symm hp
    · cases he
  · rcases h with ⟨c, hc, hd⟩ | ⟨c, rest, he, hd, _, _⟩ | he
    · have hall : raw.all isDigit = false := by
        rw [List.all_eq_false]
        exact ⟨c, List.mem_of_mem_tail hc, by simp [hd]⟩
      by_cases ht : raw = []
      · simp [ht]
      · simp [ht, hall]
    · have hall : raw.all isDigit = false := by
        rw [List.all_eq_false]
        exact ⟨c, by rw [he]; exact List.mem_cons_self _ _, by simp [hd]⟩
      by_cases ht : raw = []
      · simp [ht]
      · simp [ht, hall]
    · simp [he]

/-- Whatever `.*key: (data)` captures was captured at some position. -/
theorem afterStar_captureAt (re : Regexp) (s cap : Str) (h : re.afterStar s = some cap) :
    ∃ s2, re.captureAt s2 = some cap := by
  induction s with
  | nil => exact ⟨[], h⟩
  | cons c s ih =>
    simp only [Regexp.afterStar] at h
    split at h
    · rename_i cap2 heq
      simp only [Option.some.injEq] at h
      subst h
      by_cases hc : (c != '\n') = true
      · rw [if_pos hc] at heq
        exact ih heq
      · rw [if_neg hc] at heq
        cases heq
    · exact ⟨_, h⟩

/-- A capture is a run of characters its pattern accepts, of the least length
at the minimum. -/
theorem find_capture (re : Regexp) (l cap : Str) (h : re.FindStringSubmatch l = some cap) :
    (∀ c ∈ cap, re.data.accepts c = true) ∧ re.data.least ≤ cap.length := by
  unfold Regexp.FindStringSubmatch at h
  split at h
  · obtain ⟨s2, h2⟩ := afterStar_captureAt re _ cap h
    unfold Regexp.captureAt at h2
    split at h2
    · simp only [] at h2
      split at h2
      · rename_i hlen
        simp only [Option.some.injEq] at h2
        subst h2
        exact ⟨fun c hc => List.mem_takeWhile_imp hc, hlen⟩
      · cases h2
    · cases h2
  · cases h

/-- C12 (as amended): integer coercion gives the decimal value of a non-empty
string of digits when that value is below `2^63` and fails when it is not; it
fails on the empty text and on a text holding a character that is neither a
digit nor a leading sign; so a capture of the integer pattern is coerced
exactly when its value is below `2^63`. -/
theorem parse_int (raw key : Str) :
    (raw ≠ [] → raw.all isDigit = true → decimal raw < 2 ^ 63 →
      parse raw key "int".toList = some (.int64 (decimal raw))) ∧
    (raw ≠ [] → raw.all isDigit = true → 2 ^ 63 ≤ decimal raw →
      parse raw key "int".toList = none) ∧
    (((∃ c ∈ raw.tail, isDigit c = false) ∨
      (∃ c rest, raw = c :: rest ∧ isDigit c = false ∧ c ≠ '+' ∧ c ≠ '-') ∨ raw = []) →
      parse raw key "int".toList = none) ∧
    (∀ (re : Regexp) (line : Str), re.data = Data.digits →
      re.FindStringSubmatch line = some raw →
      (parse raw key "int".toList ≠ none ↔ decimal raw < 2 ^ 63)) := by
  rw [parse_int_eq]
  refine ⟨?_, ?_, ?_, ?_⟩
  · intro hne hd hlt
    rw [ParseInt_digits raw hne hd, if_neg (by omega)]
    rfl
  · intro hne hd hge
    rw [ParseInt_digits raw hne hd, if_pos hge]
    rfl
  · intro h
    rw [ParseInt_nondigit raw h]
    rfl
  · intro re line hdig hfind
    obtain ⟨hacc, hlen⟩ := find_capture re line raw hfind
    rw [hdig] at hacc hlen
    have hne : raw ≠ [] := by
      intro he
      rw [he] at hlen
      simp [Data.least] at hlen
    have hd : raw.all isDigit = true := by
      rw [List.all_eq_true]
      exact fun c hc => hacc c hc
    rw [ParseInt_digits raw hne hd]
    by_cases hge : decimal raw ≥ 2 ^ 63
    · rw [if_pos hge]
      constructor
      · intro h; exact absurd rfl h
      · intro h; omega
    · rw [if_neg hge]
      constructor
      · intro _; omega
      · intro _ h; cases h

theorem parse_int_witness :
    (("10".toList ≠ [] ∧ "10".toList.all isDigit = true ∧ decimal "10".toList < 2 ^ 63) ∧
      parse "10".toList "Rows_examined".toList "int".toList =
        some (.int64 (decimal "10".toList))) ∧
    (("99999999999999999999".toList ≠ [] ∧ "99999999999999999999".toList.all isDigit = true ∧
        2 ^ 63 ≤ decimal "99999999999999999999".toList) ∧
      parse "99999999999999999999".toList "Rows_examined".toList "int".toList = none) ∧
    ((∃ c ∈ "1x".toList.tail, isDigit c = false) ∧
      parse "1x".toList "Rows_examined".toList "int".toList = none) ∧
    ((Regexp.mk "Rows_examined".toList Data.digits).FindStringSubmatch
        "# Rows_sent: 1  Rows_examined: 10".toList = some "10".toList ∧
      (parse "10".toList "Rows_examined".toList "int".toList ≠ none ↔
        decimal "10".toList < 2 ^ 63)) :=
  ⟨⟨⟨by decide, by decide, by decide!⟩,
      (parse_int "10".toList "Rows_examined".toList).1 (by decide) (by decide) (by decide!)⟩,
    ⟨⟨by decide, by decide, by decide!⟩,
      (parse_int "99999999999999999999".toList "Rows_examined".toList).2.1
        (by decide) (by decide) (by decide!)⟩,
    ⟨⟨'x', by decide, by decide⟩,
      (parse_int "1x".toList "Rows_examined".toList).2.2.1
        (Or.inl ⟨'x', by decide, by decide⟩)⟩,
    ⟨by decide!,
      (parse_int "10".toList "Rows_examined".toList).2.2.2
        (Regexp.mk "Rows_examined".toList Data.digits) "# Rows_sent: 1  Rows_examined: 10".toList
        rfl (by decide!)⟩⟩

/-- C12 (counterexample): the digit string `9223372036854775808` is captured by
the integer pattern and fails coercion, so a log line carrying it aborts the
run; and the text `-5`, which has a character that is not a digit, is coerced. -/
theorem parse_int_out_of_range :
    "9223372036854775808".toList.all isDigit = true ∧
    parse "9223372036854775808".toList "Rows_sent".toList "int".toList = none ∧
    match_ regexps "# Rows_sent: 9223372036854775808".toList "Rows_sent".toList =
      .ok (some "9223372036854775808".toList) ∧
    RunRecords (wholeLines ["# Rows_sent: 9223372036854775808".toList]) =
      .error (.fatal "Rows_sent".toList "9223372036854775808".toList) ∧
    parse "-5".toList "Rows_sent".toList "int".toList = some (.int64 (-5)) := by
  decide!

/-! ## Theorems on the rule table -/

theorem rules_kinds_mem : ∀ kr ∈ rules, kr.2 ∈ kinds := by decide!

theorem rules_patterns :
    ∀ kr ∈ rules, dataOf kr.2 ≠ none ∧
      regexps.lookup kr.1 = (dataOf kr.2).map (Regexp.mk kr.1) := by
  decide!

theorem parse_ne_nil (raw key kind : Str) (h : kind ∈ kinds) :
    parse raw key kind ≠ some Value.nil := by
  simp only [kinds, List.mem_cons, List.mem_singleton, List.not_mem_nil, or_false] at h
  rcases h with rfl | rfl | rfl | rfl | rfl
  · rw [parse_datetime_eq]
    cases Parse raw <;> simp
  · rw [parse_string_eq]
    simp
  · rw [parse_time_eq]
    cases ParseDuration (raw ++ "s".toList) <;> simp
  · rw [parse_int_eq]
    cases ParseInt raw <;> simp
  · rw [parse_bool_eq]
    split
    · simp
    · split <;> simp

/-- C17: every entry of the rule table has one of the five kinds, each name
occurs once, `compileRegexps` does not reach its `panic`, the table `regexps`
holds for every rule name the pattern of its kind (so `match` finds one), and
`parse` on a rule of the table never returns the untyped `nil` value. -/
theorem rules_kinds :
    (∀ kr ∈ rules, kr.2 ∈ kinds) ∧
    (rules.map Prod.fst).Nodup ∧
    (∀ kr ∈ rules, dataOf kr.2 ≠ none) ∧
    compileRegexps rules ≠ none ∧
    (∀ kr ∈ rules, ∃ re, regexps.lookup kr.1 = some re ∧ re.key = kr.1 ∧
      dataOf kr.2 = some re.data) ∧
    (∀ kr ∈ rules, ∀ line, ∃ res, match_ regexps line kr.1 = .ok res) ∧
    (∀ kr ∈ rules, ∀ raw key, parse raw key kr.2 ≠ some Value.nil) := by
  refine ⟨rules_kinds_mem, by decide!, fun kr hk => (rules_patterns kr hk).1, by decide!,
    ?_, ?_, ?_⟩
  · intro kr hk
    obtain ⟨h1, h2⟩ := rules_patterns kr hk
    cases hd : dataOf kr.2 with
    | none => exact absurd hd h1
    | some d =>
      rw [hd] at h2
      exact ⟨Regexp.mk kr.1 d, h2, rfl, rfl⟩
  · intro kr hk line
    obtain ⟨re, hre⟩ := Option.isSome_iff_exists.mp (rules_compiled kr hk)
    exact ⟨re.FindStringSubmatch line, by simp [match_, hre]⟩
  · intro kr hk raw key
    exact parse_ne_nil raw key kr.2 (rules_kinds_mem kr hk)

/-! ## Frame theorems on the record builder -/

/-- C14: on a line that begins with `# `, is not a marker line and is matched
by no rule pattern, `unmarshal` returns without error and leaves the record as
it was. -/
theorem unmarshal_inert (l : Str) (r : Record) (h1 : HasPrefix l "# ".toList = true)
    (_h2 : HasPrefix l "# Time: ".toList = false)
    (h3 : ∀ kr ∈ rules, match_ regexps l kr.1 = .ok none) :
    unmarshal l r = .ok r := by
  have hscan : ∀ rs : List (Str × Str), (∀ kr ∈ rs, kr ∈ rules) →
      scanRules regexps l rs r = .ok r := by
    intro rs
    induction rs with
    | nil => intro _; rfl
    | cons kr rs ih =>
      intro hrs
      have ha : applyRule regexps l r kr = .ok r := by
        unfold applyRule
        rw [h3 kr (hrs kr (List.mem_cons_self _ _))]
      simp only [scanRules, ha]
      exact ih (fun k hk => hrs k (List.mem_cons_of_mem _ hk))
  unfold unmarshal unmarshalWith
  simp only [h1, Bool.not_true, Bool.false_eq_true, if_false]
  exact hscan rules (fun _ hk => hk)

theorem unmarshal_inert_witness :
    (HasPrefix "# User@Host: root[root] @ localhost []".toList "# ".toList = true ∧
      HasPrefix "# User@Host: root[root] @ localhost []".toList "# Time: ".toList = false ∧
      ∀ kr ∈ rules,
        match_ regexps "# User@Host: root[root] @ localhost []".toList kr.1 = .ok none) ∧
    unmarshal "# User@Host: root[root] @ localhost []".toList
        [("time".toList, Value.time 0), ("query".toList, Value.string "SELECT 1".toList)] =
      .ok [("time".toList, Value.time 0), ("query".toList, Value.string "SELECT 1".toList)] :=
  ⟨⟨by decide, by decide, by decide!⟩,
    unmarshal_inert _ _ (by decide) (by decide) (by decide!)⟩

/-- C18: on a line that does not begin with `# ` no rule pattern matches, and
`unmarshal` changes no field other than `query`; it returns whenever the value
under `query`, if any, is a string. A query line holding text shaped like an
annotation yields the query text only. -/
theorem unmarshal_plain_frame (l : Str) (r : Record)
    (h : HasPrefix l "# ".toList = false) :
    (∀ kr ∈ rules, match_ regexps l kr.1 = .ok none) ∧
    (∀ r', unmarshal l r = .ok r' →
      ∀ k, k ≠ "query".toList → r'.get k = r.get k) ∧
    (QueryOk r → ∃ r', unmarshal l r = .ok r') ∧
    unmarshal "SELECT 1 # Query_time: 5".toList [] =
      .ok [("query".toList, Value.string "SELECT 1 # Query_time: 5".toList)] := by
  refine ⟨?_, ?_, ?_, by decide!⟩
  · intro kr hk
    obtain ⟨re, hre⟩ := Option.isSome_iff_exists.mp (rules_compiled kr hk)
    simp [match_, hre, find_none_of_plain re l h]
  · intro r' hr' k hk
    cases hq : r.get "query".toList with
    | none =>
      rw [unmarshal_plain_first l r h hq] at hr'
      cases hr'
      exact get_set_ne _ _ _ _ (Ne.symm hk)
    | some v =>
      cases v with
      | string q =>
        rw [unmarshal_plain_next l q r h hq] at hr'
        cases hr'
        exact get_set_ne _ _ _ _ (Ne.symm hk)
      | _ =>
        exfalso
        unfold unmarshal unmarshalWith at hr'
        simp only [h, Bool.not_false, if_true, hq] at hr'
        cases hr'
  · intro hqok
    cases hq : r.get "query".toList with
    | none => exact ⟨_, unmarshal_plain_first l r h hq⟩
    | some v =>
      obtain ⟨q, rfl⟩ := hqok v hq
      exact ⟨_, unmarshal_plain_next l q r h hq⟩

theorem unmarshal_plain_frame_witness :
    HasPrefix "SELECT 1 # Rows_sent: 5".toList "# ".toList = false ∧
    (∀ r', unmarshal "SELECT 1 # Rows_sent: 5".toList
        [("rows_sent".toList, Value.int64 1)] = .ok r' →
      ∀ k, k ≠ "query".toList → r'.get k = Record.get [("rows_sent".toList, Value.int64 1)] k) ∧
    ∃ r', unmarshal "SELECT 1 # Rows_sent: 5".toList [("rows_sent".toList, Value.int64 1)] =
      .ok r' :=
  ⟨by decide,
    (unmarshal_plain_frame "SELECT 1 # Rows_sent: 5".toList [("rows_sent".toList, Value.int64 1)]
      (by decide)).2.1,
    (unmarshal_plain_frame "SELECT 1 # Rows_sent: 5".toList [("rows_sent".toList, Value.int64 1)]
      (by decide)).2.2.1 (by
        intro v hv
        have hn : Record.get [("rows_sent".toList, Value.int64 1)] "query".toList = none := by
          decide
        rw [hn] at hv
        cases hv)⟩

/-! ## Invariants of the record builder -/

theorem set_mem (r : Record) (k : Str) (v : Value) (kv : Str × Value)
    (h : kv ∈ r.set k v) : kv ∈ r ∨ kv = (k, v) := by
  induction r with
  | nil =>
    simp only [Record.set, List.mem_singleton] at h
    exact Or.inr h
  | cons x r ih =>
    obtain ⟨k0, v0⟩ := x
    by_cases h0 : k0 = k
    · simp only [Record.set, h0, if_true, List.mem_cons] at h
      rcases h with h | h
      · exact Or.inr h
      · exact Or.inl (List.mem_cons_of_mem _ h)
    · simp only [Record.set, h0, if_false, List.mem_cons] at h
      rcases h with h | h
      · exact Or.inl (by rw [h]; exact List.mem_cons_self _ _)
      · rcases ih h with h | h
        · exact Or.inl (List.mem_cons_of_mem _ h)
        · exact Or.inr h

/-- What one rule does to the record when it does not end the run. -/
theorem applyRule_shape (l : Str) (r r' : Record) (kr : Str × Str)
    (h : applyRule regexps l r kr = .ok r') :
    r' = r ∨ ∃ raw value, match_ regexps l kr.1 = .ok (some raw) ∧
      parse raw kr.1 kr.2 = some value ∧ r' = r.set (ToLower kr.1) value := by
  unfold applyRule at h
  split at h
  · cases h
  · cases h
    exact Or.inl rfl
  · rename_i raw hm
    split at h
    · cases h
    · rename_i value hp
      cases h
      exact Or.inr ⟨raw, value, hm, hp, rfl⟩

/-- A failure of one rule of the table is the `log.Fatalf` of `unmarshal`. -/
theorem applyRule_error (l : Str) (r : Record) (kr : Str × Str) (e : Failure)
    (hk : kr ∈ rules) (h : applyRule regexps l r kr = .error e) :
    ∃ raw, match_ regexps l kr.1 = .ok (some raw) ∧ parse raw kr.1 kr.2 = none ∧
      e = .fatal kr.1 raw := by
  obtain ⟨re, hre⟩ := Option.isSome_iff_exists.mp (rules_compiled kr hk)
  have hm : match_ regexps l kr.1 = .ok (re.FindStringSubmatch l) := by
    simp [match_, hre]
  unfold applyRule at h
  rw [hm] at h
  cases hf : re.FindStringSubmatch l with
  | none =>
    rw [hf] at h
    cases h
  | some raw =>
    rw [hf] at h
    simp only [] at h
    cases hp : parse raw kr.1 kr.2 with
    | none =>
      rw [hp] at h
      cases h
      exact ⟨raw, by rw [hm, hf], hp, rfl⟩
    | some value =>
      rw [hp] at h
      cases h

theorem scanRules_inv (P : Record → Prop) (l : Str) (rs : List (Str × Str))
    (hset : ∀ kr ∈ rs, ∀ r raw value, P r → parse raw kr.1 kr.2 = some value →
      P (r.set (ToLower kr.1) value))
    (r r' : Record) (h : scanRules regexps l rs r = .ok r') (hp : P r) : P r' := by
  induction rs generalizing r with
  | nil =>
    cases h
    exact hp
  | cons kr rs ih =>
    simp only [scanRules] at h
    cases ha : applyRule regexps l r kr with
    | error e =>
      rw [ha] at h
      cases h
    | ok r1 =>
      rw [ha] at h
      simp only [] at h
      apply ih (fun k hk => hset k (List.mem_cons_of_mem _ hk)) r1 h
      rcases applyRule_shape l r r1 kr ha with rfl | ⟨raw, value, _, hv, rfl⟩
      · exact hp
      · exact hset kr (List.mem_cons_self _ _) r raw value hp hv

theorem scanRules_error (l : Str) (rs : List (Str × Str)) (r : Record) (e : Failure)
    (hrs : ∀ kr ∈ rs, kr ∈ rules) (h : scanRules regexps l rs r = .error e) :
    ∃ kr ∈ rs, ∃ raw, match_ regexps l kr.1 = .ok (some raw) ∧ parse raw kr.1 kr.2 = none ∧
      e = .fatal kr.1 raw := by
  induction rs generalizing r with
  | nil => cases h
  | cons kr rs ih =>
    simp only [scanRules] at h
    cases ha : applyRule regexps l r kr with
    | error e2 =>
      rw [ha] at h
      cases h
      obtain ⟨raw, h1, h2, h3⟩ := applyRule_error l r kr e (hrs kr (List.mem_cons_self _ _)) ha
      exact ⟨kr, List.mem_cons_self _ _, raw, h1, h2, h3⟩
    | ok r1 =>
      rw [ha] at h
      simp only [] at h
      obtain ⟨k, hk, raw, h1, h2, h3⟩ :=
        ih r1 (fun k hk => hrs k (List.mem_cons_of_mem _ hk)) h
      exact ⟨k, List.mem_cons_of_mem _ hk, raw, h1, h2, h3⟩

/-- What `unmarshal` does when it returns: it sets or extends `query` on a line
without the leading `# `, and otherwise scans the rules. -/
theorem unmarshal_shape (l : Str) (r r' : Record) (h : unmarshal l r = .ok r') :
    (∃ q, r' = r.set "query".toList (.string q)) ∨
    scanRules regexps l rules r = .ok r' ∨
    (∃ q, scanRules regexps l rules (r.set "query".toList (.string q)) = .ok r') := by
  unfold unmarshal unmarshalWith at h
  split at h
  · split at h
    · cases h
      exact Or.inl ⟨_, rfl⟩
    · cases h
    · exact Or.inr (Or.inr ⟨_, h⟩)
  · exact Or.inr (Or.inl h)

theorem unmarshal_inv (P : Record → Prop)
    (hset : ∀ kr ∈ rules, ∀ r raw value, P r → parse raw kr.1 kr.2 = some value →
      P (r.set (ToLower kr.1) value))
    (hquery : ∀ r q, P r → P (r.set "query".toList (.string q)))
    (l : Str) (r r' : Record) (h : unmarshal l r = .ok r') (hp : P r) : P r' := by
  rcases unmarshal_shape l r r' h with ⟨q, rfl⟩ | h | ⟨q, h⟩
  · exact hquery r q hp
  · exact scanRules_inv P l rules hset r r' h hp
  · exact scanRules_inv P l rules hset _ r' h (hquery r q hp)

theorem buildRecord_inv (P : Record → Prop)
    (hset : ∀ kr ∈ rules, ∀ r raw value, P r → parse raw kr.1 kr.2 = some value →
      P (r.set (ToLower kr.1) value))
    (hquery : ∀ r q, P r → P (r.set "query".toList (.string q)))
    (ls : List Str) (r r' : Record) (h : buildRecord ls r = .ok r') (hp : P r) : P r' := by
  induction ls generalizing r with
  | nil =>
    cases h
    exact hp
  | cons l ls ih =>
    simp only [buildRecord] at h
    cases hu : unmarshal l r with
    | error e =>
      rw [hu] at h
      cases h
    | ok r1 =>
      rw [hu] at h
      exact ih r1 h (unmarshal_inv P hset hquery l r r1 hu hp)

theorem process_inv (P : Record → Prop)
    (hset : ∀ r k v, k ∈ derivedKeys → P r → P (r.set k v)) (r : Record) (hp : P r) :
    P (process r).1 := by
  unfold process
  split
  · rename_i t ht
    simp only []
    have h1 : P (match r.get "query_time".toList with
        | some (.duration queryTime) =>
          r.set "time_start".toList (.time (timeAdd t (wrapInt64 (queryTime * -1))))
        | _ => r) := by
      split
      · exact hset _ _ _ (by decide) hp
      · exact hp
    split
    · exact hset _ _ _ (by decide) (hset _ _ _ (by decide) h1)
    · exact h1
  · exact hp

theorem rules_lowercase : ∀ kr ∈ rules, ∀ c ∈ ToLower kr.1, c.isUpper = false := by
  decide!

theorem derivedKeys_lowercase : ∀ k ∈ derivedKeys, ∀ c ∈ k, c.isUpper = false := by
  decide!

theorem keysAllowed_set (r : Record) (k : Str) (v : Value)
    (hk : (∃ kr ∈ rules, k = ToLower kr.1) ∨ k ∈ derivedKeys) (h : KeysAllowed r) :
    KeysAllowed (r.set k v) := by
  intro kv hkv
  rcases set_mem r k v kv hkv with hm | rfl
  · exact h kv hm
  · exact hk

/-- C16: every key of a record built by `unmarshal` from the empty record over
any lines and then passed through `process` is the lowercase form of a rule name
or one of `query`, `time_start`, `query_length`, `query_type`, and holds no
uppercase letter. -/
theorem keys_lowercase (ls : List Str) (r : Record) (h : buildRecord ls [] = .ok r) :
    ∀ kv ∈ (process r).1,
      ((∃ kr ∈ rules, kv.1 = ToLower kr.1) ∨ kv.1 ∈ derivedKeys) ∧
      ∀ c ∈ kv.1, c.isUpper = false := by
  have hb : KeysAllowed r :=
    buildRecord_inv KeysAllowed
      (fun kr hk r0 _ value hr0 _ => keysAllowed_set r0 _ value (Or.inl ⟨kr, hk, rfl⟩) hr0)
      (fun r0 q hr0 => keysAllowed_set r0 _ _ (Or.inr (by decide)) hr0)
      ls [] r h (fun kv hkv => by cases hkv)
  have hp : KeysAllowed (process r).1 :=
    process_inv KeysAllowed (fun r0 k v hk hr0 => keysAllowed_set r0 k v (Or.inr hk) hr0) r hb
  intro kv hkv
  refine ⟨hp kv hkv, ?_⟩
  rcases hp kv hkv with ⟨kr, hk, he⟩ | hd
  · rw [he]
    exact rules_lowercase kr hk
  · exact derivedKeys_lowercase kv.1 hd

theorem keys_lowercase_witness :
    buildRecord example1 [] = .ok example1Built ∧
    ∀ kv ∈ (process example1Built).1,
      ((∃ kr ∈ rules, kv.1 = ToLower kr.1) ∨ kv.1 ∈ derivedKeys) ∧
      ∀ c ∈ kv.1, c.isUpper = false :=
  ⟨by decide!, keys_lowercase example1 example1Built (by decide!)⟩

theorem rules_typed :
    ∀ kr ∈ rules, ToLower kr.1 ∉ derivedKeys ∧
      (ToLower kr.1 = "time".toList → kr.2 = "datetime".toList) ∧
      (ToLower kr.1 = "query_time".toList → kr.2 = "time".toList) := by
  decide!

theorem typeInv_nil : TypeInv [] :=
  ⟨fun v h => (by cases h), fun v h => (by cases h), fun v h => (by cases h)⟩

theorem typeInv_query (r : Record) (q : Str) (h : TypeInv r) :
    TypeInv (r.set "query".toList (.string q)) := by
  obtain ⟨_, h2, h3⟩ := h
  refine ⟨?_, ?_, ?_⟩
  · intro v hv
    rw [get_set_eq] at hv
    exact ⟨q, (Option.some.inj hv).symm⟩
  · intro v hv
    rw [get_set_ne _ _ _ _ (by decide)] at hv
    exact h2 v hv
  · intro v hv
    rw [get_set_ne _ _ _ _ (by decide)] at hv
    exact h3 v hv

theorem typeInv_rule (kr : Str × Str) (hk : kr ∈ rules) (r : Record) (raw : Str)
    (value : Value) (h : TypeInv r) (hp : parse raw kr.1 kr.2 = some value) :
    TypeInv (r.set (ToLower kr.1) value) := by
  obtain ⟨h1, h2, h3⟩ := h
  obtain ⟨t1, t2, t3⟩ := rules_typed kr hk
  refine ⟨?_, ?_, ?_⟩
  · intro v hv
    have hne : ToLower kr.1 ≠ "query".toList := fun he => t1 (by rw [he]; decide)
    rw [get_set_ne _ _ _ _ hne] at hv
    exact h1 v hv
  · intro v hv
    by_cases he : ToLower kr.1 = "time".toList
    · rw [he, get_set_eq] at hv
      rw [t2 he, parse_datetime_eq] at hp
      cases hP : Parse raw with
      | none =>
        rw [hP] at hp
        cases hp
      | some t =>
        rw [hP] at hp
        exact ⟨t, by rw [← Option.some.inj hv, ← Option.some.inj hp]⟩
    · rw [get_set_ne _ _ _ _ he] at hv
      exact h2 v hv
  · intro v hv
    by_cases he : ToLower kr.1 = "query_time".toList
    · rw [he, get_set_eq] at hv
      rw [t3 he, parse_time_eq] at hp
      cases hP : ParseDuration (raw ++ "s".toList) with
      | none =>
        rw [hP] at hp
        cases hp
      | some d =>
        rw [hP] at hp
        exact ⟨d, by rw [← Option.some.inj hv, ← Option.some.inj hp]⟩
    · rw [get_set_ne _ _ _ _ he] at hv
      exact h3 v hv

/-- The failed type assertion of `unmarshal` does not occur on a record whose
value under `query` is a string. -/
theorem unmarshal_no_panic (l : Str) (r : Record) (hq : QueryOk r) :
    unmarshal l r ≠ .error .panic := by
  intro h
  unfold unmarshal unmarshalWith at h
  split at h
  · split at h
    · cases h
    · rename_i v hns hg
      obtain ⟨q, hv⟩ := hq v hg
      exact hns q hv
    · obtain ⟨_, _, _, _, _, he⟩ := scanRules_error l rules _ _ (fun _ hk => hk) h
      cases he
  · obtain ⟨_, _, _, _, _, he⟩ := scanRules_error l rules _ _ (fun _ hk => hk) h
    cases he

/-- C20: in every record reached from the empty record by calls of `unmarshal`,
the value under `query` is a string, under `time` a timestamp and under
`query_time` a duration; so the string assertion of `unmarshal` never fails on
it and `process` accepts it exactly when the key `time` is present. No lowercase
rule name is one of `query`, `time_start`, `query_length`, `query_type`. -/
theorem reachable_types (ls : List Str) (r : Record) (h : buildRecord ls [] = .ok r) :
    TypeInv r ∧
    (∀ l, unmarshal l r ≠ .error .panic) ∧
    ((process r).2 = true ↔ (r.get "time".toList).isSome = true) ∧
    (∀ kr ∈ rules, ToLower kr.1 ∉ derivedKeys) := by
  have hT : TypeInv r :=
    buildRecord_inv TypeInv (fun kr hk r0 raw value hr0 hp => typeInv_rule kr hk r0 raw value hr0 hp)
      typeInv_query ls [] r h typeInv_nil
  refine ⟨hT, fun l => unmarshal_no_panic l r hT.1, ?_, fun kr hk => (rules_typed kr hk).1⟩
  rw [process_ok_iff]
  constructor
  · rintro ⟨t, ht⟩
    rw [ht]
    rfl
  · intro hs
    obtain ⟨v, hv⟩ := Option.isSome_iff_exists.mp hs
    obtain ⟨t, rfl⟩ := hT.2.1 v hv
    exact ⟨t, hv⟩

theorem reachable_types_witness :
    buildRecord example1 [] = .ok example1Built ∧
    TypeInv example1Built ∧
    (∀ l, unmarshal l example1Built ≠ .error .panic) ∧
    ((process example1Built).2 = true ↔ (example1Built.get "time".toList).isSome = true) ∧
    (∀ kr ∈ rules, ToLower kr.1 ∉ derivedKeys) :=
  ⟨by decide!, reachable_types example1 example1Built (by decide!)⟩

/-! ## The order of the rules -/

theorem recEq_refl (a : Record) : RecEq a a := fun _ => rfl

theorem recEq_set (a b : Record) (k : Str) (v : Value) (h : RecEq a b) :
    RecEq (a.set k v) (b.set k v) := by
  intro k2
  by_cases hk : k = k2
  · subst hk
    rw [get_set_eq, get_set_eq]
  · rw [get_set_ne _ _ _ _ hk, get_set_ne _ _ _ _ hk]
    exact h k2

theorem recEq_set_comm (a b : Record) (k1 k2 : Str) (v1 v2 : Value) (hne : k1 ≠ k2)
    (h : RecEq a b) : RecEq ((a.set k1 v1).set k2 v2) ((b.set k2 v2).set k1 v1) := by
  intro k
  by_cases h2 : k2 = k
  · subst h2
    rw [get_set_eq, get_set_ne _ _ _ _ hne, get_set_eq]
  · rw [get_set_ne _ _ _ _ h2]
    by_cases h1 : k1 = k
    · subst h1
      rw [get_set_eq, get_set_eq]
    · rw [get_set_ne _ _ _ _ h1, get_set_ne _ _ _ _ h1, get_set_ne _ _ _ _ h2]
      exact h k

theorem sameOutcome_trans (a b c : Except Failure Record) (h1 : SameOutcome a b)
    (h2 : SameOutcome b c) : SameOutcome a c := by
  cases a <;> cases b <;> cases c <;> simp only [SameOutcome] at h1 h2 ⊢
  intro k
  exact (h1 k).trans (h2 k)

theorem applyRule_effect (regexps : List (Str × Regexp)) (l : Str) (r : Record)
    (kr : Str × Str) :
    applyRule regexps l r kr =
      match ruleEffect regexps l kr with
      | .error e => .error e
      | .ok none => .ok r
      | .ok (some kv) => .ok (r.set kv.1 kv.2) := by
  unfold applyRule ruleEffect
  cases match_ regexps l kr.1 with
  | error e => rfl
  | ok m =>
    cases m with
    | none => rfl
    | some raw =>
      simp only []
      cases parse raw kr.1 kr.2 <;> rfl

theorem ruleEffect_key (regexps : List (Str × Regexp)) (l : Str) (kr : Str × Str)
    (kv : Str × Value) (h : ruleEffect regexps l kr = .ok (some kv)) :
    kv.1 = ToLower kr.1 := by
  unfold ruleEffect at h
  split at h
  · cases h
  · cases h
  · split at h
    · cases h
    · cases h
      rfl

theorem scanRules_cons (regexps : List (Str × Regexp)) (l : Str) (kr : Str × Str)
    (rs : List (Str × Str)) (r : Record) :
    scanRules regexps l (kr :: rs) r =
      match ruleEffect regexps l kr with
      | .error e => .error e
      | .ok none => scanRules regexps l rs r
      | .ok (some kv) => scanRules regexps l rs (r.set kv.1 kv.2) := by
  simp only [scanRules, applyRule_effect]
  cases ruleEffect regexps l kr with
  | error e => rfl
  | ok m => cases m <;> rfl

/-- The same rules in the same order on two records that are the same map. -/
theorem scanRules_congr (regexps : List (Str × Regexp)) (l : Str) (rs : List (Str × Str))
    (a b : Record) (h : RecEq a b) :
    SameOutcome (scanRules regexps l rs a) (scanRules regexps l rs b) := by
  induction rs generalizing a b with
  | nil => exact h
  | cons kr rs ih =>
    rw [scanRules_cons, scanRules_cons]
    cases ruleEffect regexps l kr with
    | error e => trivial
    | ok m =>
      cases m with
      | none => exact ih a b h
      | some kv => exact ih _ _ (recEq_set a b kv.1 kv.2 h)

/-- The rules in two orders, their lowercase names pairwise distinct. -/
theorem scanRules_perm (regexps : List (Str × Regexp)) (l : Str)
    (l1 l2 : List (Str × Str)) (hp : l1.Perm l2)
    (hnd : (l1.map fun kr => ToLower kr.1).Nodup) (a b : Record) (h : RecEq a b) :
    SameOutcome (scanRules regexps l l1 a) (scanRules regexps l l2 b) := by
  induction hp generalizing a b with
  | nil => exact h
  | cons kr _ ih =>
    rw [scanRules_cons, scanRules_cons]
    rw [List.map_cons, List.nodup_cons] at hnd
    cases ruleEffect regexps l kr with
    | error e => trivial
    | ok m =>
      cases m with
      | none => exact ih hnd.2 a b h
      | some kv => exact ih hnd.2 _ _ (recEq_set a b kv.1 kv.2 h)
  | swap x y rs =>
    have hne : ToLower y.1 ≠ ToLower x.1 := by
      rw [List.map_cons, List.nodup_cons, List.map_cons] at hnd
      intro he
      apply hnd.1
      rw [he]
      exact List.mem_cons_self _ _
    cases hy : ruleEffect regexps l y with
    | error e =>
      cases hx : ruleEffect regexps l x with
      | error e2 =>
        simp only [scanRules_cons, hy, hx]
        trivial
      | ok m =>
        cases m <;> simp only [scanRules_cons, hy, hx] <;> trivial
    | ok my =>
      cases hx : ruleEffect regexps l x with
      | error e2 =>
        cases my <;> simp only [scanRules_cons, hy, hx] <;> trivial
      | ok mx =>
        cases my with
        | none =>
          cases mx with
          | none =>
            simp only [scanRules_cons, hy, hx]
            exact scanRules_congr regexps l rs a b h
          | some kx =>
            simp only [scanRules_cons, hy, hx]
            exact scanRules_congr regexps l rs _ _ (recEq_set a b kx.1 kx.2 h)
        | some ky =>
          cases mx with
          | none =>
            simp only [scanRules_cons, hy, hx]
            exact scanRules_congr regexps l rs _ _ (recEq_set a b ky.1 ky.2 h)
          | some kx =>
            have e1 := ruleEffect_key regexps l y ky hy
            have e2 := ruleEffect_key regexps l x kx hx
            simp only [scanRules_cons, hy, hx]
            exact scanRules_congr regexps l rs _ _
              (recEq_set_comm a b ky.1 kx.1 ky.2 kx.2 (by rw [e1, e2]; exact hne) h)
  | trans hp1 _ ih1 ih2 =>
    have hnd2 := ((hp1.map fun kr => ToLower kr.1).nodup_iff).mp hnd
    exact sameOutcome_trans _ _ _ (ih1 hnd a b h) (ih2 hnd2 b b (recEq_refl b))

theorem rules_lower_nodup : (rules.map fun kr => ToLower kr.1).Nodup := by
  decide!

/-- C19: the outcome of the rule loop of `unmarshal`, and of `unmarshal`, on a
line and a record is the same for any two orders of the rule table: both end
the run or both return the same map. The lowercase rule names are pairwise
distinct. -/
theorem unmarshal_order_independent (rs1 rs2 : List (Str × Str)) (h1 : rs1.Perm rules)
    (h2 : rs2.Perm rules) (line : Str) (r : Record) :
    SameOutcome (scanRules regexps line rs1 r) (scanRules regexps line rs2 r) ∧
    SameOutcome (unmarshalWith rs1 regexps line r) (unmarshalWith rs2 regexps line r) ∧
    (rules.map fun kr => ToLower kr.1).Nodup := by
  have hp : rs1.Perm rs2 := h1.trans h2.symm
  have hnd : (rs1.map fun kr => ToLower kr.1).Nodup :=
    ((h1.map fun kr => ToLower kr.1).nodup_iff).mpr rules_lower_nodup
  refine ⟨scanRules_perm regexps line rs1 rs2 hp hnd r r (recEq_refl r), ?_, rules_lower_nodup⟩
  unfold unmarshalWith
  split
  · split
    · exact recEq_refl _
    · trivial
    · exact scanRules_perm regexps line rs1 rs2 hp hnd _ _ (recEq_refl _)
  · exact scanRules_perm regexps line rs1 rs2 hp hnd r r (recEq_refl r)

theorem unmarshal_order_independent_witness :
    (rules.reverse.Perm rules ∧ rules.Perm rules) ∧
    SameOutcome
      (scanRules regexps "# Query_time: 2.5  Rows_sent: 1  Full_scan: Yes".toList
        rules.reverse [])
      (scanRules regexps "# Query_time: 2.5  Rows_sent: 1  Full_scan: Yes".toList rules []) ∧
    SameOutcome
      (unmarshalWith rules.reverse regexps
        "# Query_time: 2.5  Rows_sent: 1  Full_scan: Yes".toList [])
      (unmarshalWith rules regexps
        "# Query_time: 2.5  Rows_sent: 1  Full_scan: Yes".toList []) ∧
    (rules.map fun kr => ToLower kr.1).Nodup :=
  ⟨⟨List.reverse_perm _, List.Perm.refl _⟩,
    unmarshal_order_independent rules.reverse rules (List.reverse_perm _) (List.Perm.refl _)
      "# Query_time: 2.5  Rows_sent: 1  Full_scan: Yes".toList []⟩

/-! ## Theorems on the presenter -/

theorem get_prepare (r : Record) (k : Str) :
    (prepare r).get k = (r.get k).map prepareValue := by
  induction r with
  | nil => rfl
  | cons kv r ih =>
    obtain ⟨k0, v0⟩ := kv
    by_cases h : k0 = k
    · simp [prepare, Record.get, h]
    · have ih2 : Record.get (List.map (fun kv => (kv.1, prepareValue kv.2)) r) k =
          (Record.get r k).map prepareValue := ih
      simp [prepare, Record.get, h, ih2]

theorem prepareValue_idem (v : Value) : prepareValue (prepareValue v) = prepareValue v := by
  cases v <;> rfl

theorem prepareValue_kind (v : Value) :
    (∀ t, prepareValue v ≠ .time t) ∧ (∀ d, prepareValue v ≠ .duration d) := by
  cases v <;> exact ⟨fun _ h => (by cases h), fun _ h => (by cases h)⟩

/-- C15: `prepare` keeps the keys, leaves every value that is neither a
timestamp nor a duration as it was, puts a string in place of every timestamp
and a number in place of every duration, so no timestamp or duration is left;
applying it twice is the same as applying it once. -/
theorem prepare_spec (r : Record) :
    (prepare r).map Prod.fst = r.map Prod.fst ∧
    (∀ k v, r.get k = some v → (∀ t, v ≠ .time t) → (∀ d, v ≠ .duration d) →
      (prepare r).get k = some v) ∧
    (∀ k, r.get k = none → (prepare r).get k = none) ∧
    (∀ k t, r.get k = some (.time t) → (prepare r).get k = some (.string (Format t))) ∧
    (∀ k d, r.get k = some (.duration d) → (prepare r).get k = some (.float64 d)) ∧
    (∀ k v, (prepare r).get k = some v → (∀ t, v ≠ .time t) ∧ (∀ d, v ≠ .duration d)) ∧
    prepare (prepare r) = prepare r ∧
    (prepare example1Record).get "time_start".toList =
      some (.string "2023-01-01 09:59:57.50000000".toList) ∧
    (prepare example1Record).get "query_time".toList = some (.float64 2500000000) := by
  refine ⟨?_, ?_, ?_, ?_, ?_, ?_, ?_, by decide!, by decide!⟩
  · simp [prepare, List.map_map, Function.comp_def]
  · intro k v hv h1 h2
    rw [get_prepare, hv]
    cases v with
    | time t => exact absurd rfl (h1 t)
    | duration d => exact absurd rfl (h2 d)
    | _ => rfl
  · intro k hk
    rw [get_prepare, hk]
    rfl
  · intro k t hk
    rw [get_prepare, hk]
    rfl
  · intro k d hk
    rw [get_prepare, hk]
    rfl
  · intro k v hv
    rw [get_prepare] at hv
    cases hr : r.get k with
    | none =>
      rw [hr] at hv
      cases hv
    | some v0 =>
      rw [hr] at hv
      simp only [Option.map_some', Option.some.injEq] at hv
      rw [← hv]
      exact prepareValue_kind v0
  · simp [prepare, List.map_map, Function.comp_def, prepareValue_idem]

/-! ## Theorems on a failed coercion -/

theorem not_coercible (l : Str) (h : ¬ Coercible l) :
    ∃ kr ∈ rules, ∃ raw, match_ regexps l kr.1 = .ok (some raw) ∧
      parse raw kr.1 kr.2 = none := by
  unfold Coercible at h
  push_neg at h
  exact h

/-- When some rule of the list fails on the line, the rule loop ends the run at
the first such rule, whatever the record. -/
theorem scanRules_abort (l : Str) (rs : List (Str × Str)) (hrs : ∀ kr ∈ rs, kr ∈ rules)
    (h : ∃ kr ∈ rs, ∃ raw, match_ regexps l kr.1 = .ok (some raw) ∧
      parse raw kr.1 kr.2 = none) :
    ∃ kr ∈ rs, ∃ raw, match_ regexps l kr.1 = .ok (some raw) ∧ parse raw kr.1 kr.2 = none ∧
      ∀ r, scanRules regexps l rs r = .error (.fatal kr.1 raw) := by
  induction rs with
  | nil =>
    obtain ⟨kr, hk, _⟩ := h
    cases hk
  | cons k rs ih =>
    obtain ⟨re, hre⟩ := Option.isSome_iff_exists.mp (rules_compiled k (hrs k (List.mem_cons_self _ _)))
    have hm : match_ regexps l k.1 = .ok (re.FindStringSubmatch l) := by
      simp [match_, hre]
    have tail : (∃ kr ∈ rs, ∃ raw, match_ regexps l kr.1 = .ok (some raw) ∧
        parse raw kr.1 kr.2 = none) →
        (∀ r, ∃ r1, applyRule regexps l r k = .ok r1) →
        ∃ kr ∈ k :: rs, ∃ raw, match_ regexps l kr.1 = .ok (some raw) ∧
          parse raw kr.1 kr.2 = none ∧
          ∀ r, scanRules regexps l (k :: rs) r = .error (.fatal kr.1 raw) := by
      intro ht hok
      obtain ⟨kr, hkr, raw, h1, h2, h3⟩ :=
        ih (fun x hx => hrs x (List.mem_cons_of_mem _ hx)) ht
      refine ⟨kr, List.mem_cons_of_mem _ hkr, raw, h1, h2, ?_⟩
      intro r
      obtain ⟨r1, hr1⟩ := hok r
      simp only [scanRules, hr1]
      exact h3 r1
    cases hf : re.FindStringSubmatch l with
    | none =>
      apply tail
      · obtain ⟨kr, hkr, raw, h1, h2⟩ := h
        rcases List.mem_cons.mp hkr with rfl | hkr
        · rw [hm, hf] at h1
          cases h1
        · exact ⟨kr, hkr, raw, h1, h2⟩
      · intro r
        exact ⟨r, by unfold applyRule; rw [hm, hf]⟩
    | some raw0 =>
      cases hp : parse raw0 k.1 k.2 with
      | none =>
        refine ⟨k, List.mem_cons_self _ _, raw0, by rw [hm, hf], hp, ?_⟩
        intro r
        have ha : applyRule regexps l r k = .error (.fatal k.1 raw0) := by
          unfold applyRule
          rw [hm, hf]
          simp only [hp]
        simp only [scanRules, ha]
      | some value =>
        apply tail
        · obtain ⟨kr, hkr, raw, h1, h2⟩ := h
          rcases List.mem_cons.mp hkr with rfl | hkr
          · rw [hm, hf] at h1
            cases h1
            rw [hp] at h2
            cases h2
          · exact ⟨kr, hkr, raw, h1, h2⟩
        · intro r
          exact ⟨r.set (ToLower k.1) value, by unfold applyRule; rw [hm, hf]; simp only [hp]⟩

/-- On a line with a failing coercion `unmarshal` ends the run, whatever the
record. -/
theorem unmarshal_abort (l : Str) (h : ¬ Coercible l) :
    ∃ kr ∈ rules, ∃ raw, match_ regexps l kr.1 = .ok (some raw) ∧ parse raw kr.1 kr.2 = none ∧
      ∀ r, unmarshal l r = .error (.fatal kr.1 raw) := by
  have hne := not_coercible l h
  have hpre : HasPrefix l "# ".toList = true := by
    by_contra hn
    have hf : HasPrefix l "# ".toList = false := by simpa using hn
    obtain ⟨kr, hk, raw, h1, _⟩ := hne
    obtain ⟨re, hre⟩ := Option.isSome_iff_exists.mp (rules_compiled kr hk)
    have hm : match_ regexps l kr.1 = .ok none := by
      simp [match_, hre, find_none_of_plain re l hf]
    rw [hm] at h1
    cases h1
  obtain ⟨kr, hk, raw, h1, h2, h3⟩ := scanRules_abort l rules (fun _ hx => hx) hne
  refine ⟨kr, hk, raw, h1, h2, ?_⟩
  intro r
  unfold unmarshal unmarshalWith
  simp only [hpre, Bool.not_true, Bool.false_eq_true, if_false]
  exact h3 r

/-- The loop of `Run` ends at the first line with a failing coercion. -/
theorem RunLoop_abort (pre post : List Str) (l : Str) (e : Failure)
    (hpre : ∀ x ∈ pre, Coercible x) (hl : ∀ r, unmarshal l r = .error e)
    (line : Str) (record : Record) (records : List Record) (hq : QueryOk record) :
    RunLoop (wholeLines (pre ++ l :: post)) line record records = .error e := by
  induction pre generalizing line record records with
  | nil =>
    rw [List.nil_append, wholeLines_cons, RunLoop_whole_cons, hl]
  | cons x pre ih =>
    rw [List.cons_append, wholeLines_cons, RunLoop_whole_cons]
    have hq2 : QueryOk (if isMarker x = true then [] else record) := by
      split
      · exact queryOk_nil
      · exact hq
    obtain ⟨r1, h1, hq1⟩ := unmarshal_ok x _ (hpre x (List.mem_cons_self _ _)) hq2
    rw [h1]
    exact ih (fun y hy => hpre y (List.mem_cons_of_mem _ hy)) _ _ _ hq1

theorem first_failure (ls : List Str) (h : ∃ l ∈ ls, ¬ Coercible l) :
    ∃ pre l post, ls = pre ++ l :: post ∧ (∀ x ∈ pre, Coercible x) ∧ ¬ Coercible l := by
  induction ls with
  | nil =>
    obtain ⟨l, hl, _⟩ := h
    cases hl
  | cons x ls ih =>
    by_cases hx : Coercible x
    · obtain ⟨l, hl, hn⟩ := h
      rcases List.mem_cons.mp hl with rfl | hl
      · exact absurd hx hn
      · obtain ⟨pre, l2, post, he, hp, hn2⟩ := ih ⟨l, hl, hn⟩
        refine ⟨x :: pre, l2, post, by rw [he]; rfl, ?_, hn2⟩
        intro y hy
        rcases List.mem_cons.mp hy with rfl | hy
        · exact hx
        · exact hp y hy
    · exact ⟨[], x, ls, rfl, fun _ hy => (by cases hy), hx⟩

theorem compileRegexps_rules : compileRegexps rules ≠ none := by decide!

theorem Run_error (input : List (Str × Bool)) (e : Failure) (h : RunRecords input = .error e) :
    Run input = .error e ∧ output (Run input) = [] := by
  have hc : ∃ t, compileRegexps rules = some t := by
    cases hcr : compileRegexps rules with
    | none => exact absurd hcr compileRegexps_rules
    | some t => exact ⟨t, rfl⟩
  obtain ⟨t, ht⟩ := hc
  have hr : Run input = .error e := by
    unfold Run
    rw [ht, h]
  exact ⟨hr, by rw [hr]; rfl⟩

/-- When some line of a log the reader returns in whole lines carries an
annotation whose captured value fails coercion, the run ends at the first such
line with the `log.Fatalf` of a failing rule of that line, whatever follows the
line, and saves no record, the records of the blocks completed before that
line included. -/
theorem Run_aborts (ls : List Str) (h : ∃ l ∈ ls, ¬ Coercible l) :
    ∃ pre l post, ls = pre ++ l :: post ∧ (∀ x ∈ pre, Coercible x) ∧
      ∃ kr ∈ rules, ∃ raw, match_ regexps l kr.1 = .ok (some raw) ∧
        parse raw kr.1 kr.2 = none ∧
        (∀ post2, Run (wholeLines (pre ++ l :: post2)) = .error (.fatal kr.1 raw)) ∧
        Run (wholeLines ls) = .error (.fatal kr.1 raw) ∧
        output (Run (wholeLines ls)) = [] := by
  obtain ⟨pre, l, post, he, hpre, hl⟩ := first_failure ls h
  obtain ⟨kr, hk, raw, h1, h2, h3⟩ := unmarshal_abort l hl
  have hrun : ∀ post2, RunRecords (wholeLines (pre ++ l :: post2)) = .error (.fatal kr.1 raw) :=
    fun post2 => RunLoop_abort pre post2 l _ hpre h3 [] [] [] queryOk_nil
  refine ⟨pre, l, post, he, hpre, kr, hk, raw, h1, h2, ?_, ?_, ?_⟩
  · intro post2
    exact (Run_error _ _ (hrun post2)).1
  · rw [he]
    exact (Run_error _ _ (hrun post)).1
  · rw [he]
    exact (Run_error _ _ (hrun post)).2

theorem coercible_complete (l : Str) (h : Coercible l) : coercible l = true := by
  unfold coercible
  rw [List.all_eq_true]
  intro kr hk
  cases hm : match_ regexps l kr.1 with
  | error e => rfl
  | ok m =>
    cases m with
    | none => rfl
    | some raw =>
      have hp := h kr hk raw hm
      cases hv : parse raw kr.1 kr.2 with
      | none => exact absurd hv hp
      | some v =>
        show (parse raw kr.1 kr.2).isSome = true
        rw [hv]
        rfl

theorem Run_aborts_witness :
    (∃ l ∈ example3, ¬ Coercible l) ∧
    (∃ pre l post, example3 = pre ++ l :: post ∧ (∀ x ∈ pre, Coercible x) ∧
      ∃ kr ∈ rules, ∃ raw, match_ regexps l kr.1 = .ok (some raw) ∧
        parse raw kr.1 kr.2 = none ∧
        (∀ post2, Run (wholeLines (pre ++ l :: post2)) = .error (.fatal kr.1 raw)) ∧
        Run (wholeLines example3) = .error (.fatal kr.1 raw) ∧
        output (Run (wholeLines example3)) = []) ∧
    Run (wholeLines example3) = .error (.fatal "Full_scan".toList "Maybe".toList) ∧
    (output (Run (wholeLines example1))).length = 1 :=
  have h : ∃ l ∈ example3, ¬ Coercible l :=
    ⟨"# Full_scan: Maybe".toList, by decide, fun hc =>
      absurd (coercible_complete _ hc) (by decide!)⟩
  ⟨h, Run_aborts example3 h, by decide!, by decide!⟩

/-! ## The start time on the records of a log -/

/-- A duration `time.ParseDuration` returns for a text without a leading minus
sign is between zero and the greatest `int64`. -/
theorem ParseDuration_range (s : Str) (d : Int) (hs : ∀ t, s ≠ '-' :: t)
    (h : ParseDuration s = some d) : 0 ≤ d ∧ d < 2 ^ 63 := by
  unfold ParseDuration at h
  have hsg : (match s with
      | '-' :: t => (true, t)
      | '+' :: t => (false, t)
      | _ => ((false, s) : Bool × Str)).1 = false := by
    split
    · rename_i t
      exact absurd rfl (hs t)
    · rfl
    · rfl
  simp only [hsg, Bool.false_eq_true, if_false] at h
  split at h
  · cases h
    exact ⟨le_refl _, by norm_num⟩
  · split at h
    · cases h
    · split at h
      · cases h
      · rename_i n _
        split at h
        · cases h
        · rename_i hn
          cases h
          have e : (2 : Nat) ^ 63 = 9223372036854775808 := by norm_num
          have e2 : (2 : Int) ^ 63 = 9223372036854775808 := by norm_num
          rw [e] at hn
          rw [e2]
          omega

/-- A duration coerced from a capture of the pattern `[0-9\.]+` is between zero
and the greatest `int64`. -/
theorem parse_time_range (raw key : Str) (v : Value)
    (hraw : ∀ c ∈ raw, Data.number.accepts c = true)
    (h : parse raw key "time".toList = some v) :
    ∃ d, v = Value.duration d ∧ 0 ≤ d ∧ d < 2 ^ 63 := by
  rw [parse_time_eq] at h
  cases hp : ParseDuration (raw ++ "s".toList) with
  | none =>
    rw [hp] at h
    cases h
  | some d =>
    rw [hp] at h
    simp only [Option.map_some', Option.some.injEq] at h
    refine ⟨d, h.symm, ParseDuration_range _ d ?_ hp⟩
    intro t ht
    cases raw with
    | nil =>
      simp only [List.nil_append] at ht
      have h2 : "s".toList.head? = some '-' := by rw [ht]; rfl
      exact absurd h2 (by decide)
    | cons c rest =>
      have hc := hraw c (List.mem_cons_self _ _)
      simp only [List.cons_append, List.cons.injEq] at ht
      rw [ht.1] at hc
      exact absurd hc (by decide)

theorem scanRules_inv_captured (P : Record → Prop) (l : Str) (rs : List (Str × Str))
    (hset : ∀ kr ∈ rs, ∀ r raw value, P r → match_ regexps l kr.1 = .ok (some raw) →
      parse raw kr.1 kr.2 = some value → P (r.set (ToLower kr.1) value))
    (r r' : Record) (h : scanRules regexps l rs r = .ok r') (hp : P r) : P r' := by
  induction rs generalizing r with
  | nil =>
    cases h
    exact hp
  | cons kr rs ih =>
    simp only [scanRules] at h
    cases ha : applyRule regexps l r kr with
    | error e =>
      rw [ha] at h
      cases h
    | ok r1 =>
      rw [ha] at h
      simp only [] at h
      apply ih (fun k hk => hset k (List.mem_cons_of_mem _ hk)) r1 h
      rcases applyRule_shape l r r1 kr ha with rfl | ⟨raw, value, hm, hv, rfl⟩
      · exact hp
      · exact hset kr (List.mem_cons_self _ _) r raw value hp hm hv

theorem buildRecord_inv_captured (P : Record → Prop)
    (hset : ∀ l, ∀ kr ∈ rules, ∀ r raw value, P r → match_ regexps l kr.1 = .ok (some raw) →
      parse raw kr.1 kr.2 = some value → P (r.set (ToLower kr.1) value))
    (hquery : ∀ r q, P r → P (r.set "query".toList (.string q)))
    (ls : List Str) (r r' : Record) (h : buildRecord ls r = .ok r') (hp : P r) : P r' := by
  induction ls generalizing r with
  | nil =>
    cases h
    exact hp
  | cons l ls ih =>
    simp only [buildRecord] at h
    cases hu : unmarshal l r with
    | error e =>
      rw [hu] at h
      cases h
    | ok r1 =>
      rw [hu] at h
      apply ih r1 h
      rcases unmarshal_shape l r r1 hu with ⟨q, rfl⟩ | hs | ⟨q, hs⟩
      · exact hquery r q hp
      · exact scanRules_inv_captured P l rules (hset l) r r1 hs hp
      · exact scanRules_inv_captured P l rules (hset l) _ r1 hs (hquery r q hp)

theorem durInv_rule (l : Str) (kr : Str × Str) (hk : kr ∈ rules) (r : Record) (raw : Str)
    (value : Value) (h : DurInv r) (hm : match_ regexps l kr.1 = .ok (some raw))
    (hp : parse raw kr.1 kr.2 = some value) : DurInv (r.set (ToLower kr.1) value) := by
  intro v hv
  by_cases he : ToLower kr.1 = "query_time".toList
  · rw [he, get_set_eq] at hv
    have hkind := (rules_typed kr hk).2.2 he
    obtain ⟨_, hlook⟩ := rules_patterns kr hk
    rw [hkind] at hlook hp
    have hre : regexps.lookup kr.1 = some (Regexp.mk kr.1 Data.number) := hlook
    have hfind : (Regexp.mk kr.1 Data.number).FindStringSubmatch l = some raw := by
      unfold match_ at hm
      rw [hre] at hm
      simp only [Except.ok.injEq] at hm
      exact hm
    obtain ⟨hacc, _⟩ := find_capture _ l raw hfind
    rw [← Option.some.inj hv]
    exact parse_time_range raw kr.1 value hacc hp
  · rw [get_set_ne _ _ _ _ he] at hv
    exact h v hv

/-- The records `unmarshal` builds from the empty record hold under `query_time`
a duration between zero and the greatest `int64`. -/
theorem buildRecord_durInv (ls : List Str) (r : Record) (h : buildRecord ls [] = .ok r) :
    DurInv r :=
  buildRecord_inv_captured DurInv
    (fun l kr hk r0 raw value hr0 hm hp => durInv_rule l kr hk r0 raw value hr0 hm hp)
    (fun r0 q hr0 v hv => by
      rw [get_set_ne _ _ _ _ (by decide)] at hv
      exact hr0 v hv)
    ls [] r h (fun v hv => by cases hv)

/-- C3: on every record `unmarshal` builds from the lines of a log, the records
`process` is called on, that carries a timestamp under `time` and a duration
under `query_time`, `process` accepts, stores exactly the instant
`time - query_time` under `time_start`, and leaves `time` and `query_time`
unchanged. -/
theorem process_time_start (ls : List Str) (r : Record) (t d : Int)
    (h : buildRecord ls [] = .ok r)
    (ht : r.get "time".toList = some (.time t))
    (hd : r.get "query_time".toList = some (.duration d)) :
    (process r).2 = true ∧
    (process r).1.get "time_start".toList = some (.time (t - d)) ∧
    (process r).1.get "time".toList = some (.time t) ∧
    (process r).1.get "query_time".toList = some (.duration d) := by
  obtain ⟨d2, he, h0, h1⟩ := buildRecord_durInv ls r h _ hd
  cases he
  exact process_time_start_of_range r t d ht hd (by
    have : (-2 : Int) ^ 63 < 0 := by norm_num
    omega) h1

theorem process_time_start_witness :
    (buildRecord example1 [] = .ok example1Built ∧
      example1Built.get "time".toList = some (.time (Date 2023 1 1 10 0 0 0)) ∧
      example1Built.get "query_time".toList = some (.duration 2500000000)) ∧
    (process example1Built).2 = true ∧
    (process example1Built).1.get "time_start".toList =
      some (.time (Date 2023 1 1 10 0 0 0 - 2500000000)) ∧
    (process example1Built).1.get "time".toList = some (.time (Date 2023 1 1 10 0 0 0)) ∧
    (process example1Built).1.get "query_time".toList = some (.duration 2500000000) :=
  ⟨⟨by decide!, by decide!, by decide!⟩,
    process_time_start example1 example1Built _ _ (by decide!) (by decide!) (by decide!)⟩

/-! ## The loop of `Run` on every answer of the reader -/

theorem handed_cons_true (data : Str) (rest : List (Str × Bool)) :
    handed ((data, true) :: rest) = handed rest := rfl

theorem handed_cons_false (data : Str) (rest : List (Str × Bool)) :
    handed ((data, false) :: rest) = data :: handed rest := rfl

theorem handed_wholeLines (ls : List Str) : handed (wholeLines ls) = ls := by
  induction ls with
  | nil => rfl
  | cons l ls ih => rw [wholeLines_cons, handed_cons_false, ih]

/-- On every answer of the reader the loop of `Run` does what it does on the
handed lines alone: what was returned with the flag `isPrefix` has no effect. -/
theorem RunLoop_handed (input : List (Str × Bool)) (line : Str) (record : Record)
    (records : List Record) :
    RunLoop input line record records =
      RunLoop (wholeLines (handed input)) line record records := by
  induction input generalizing line record records with
  | nil => rfl
  | cons ev rest ih =>
    obtain ⟨data, isPre⟩ := ev
    cases isPre with
    | true =>
      have e : RunLoop ((data, true) :: rest) line record records =
          RunLoop rest (line ++ data) record records := by
        simp only [RunLoop, if_true]
      rw [e, handed_cons_true, ih]
      exact RunLoop_line _ _ _ _ _
    | false =>
      rw [handed_cons_false, wholeLines_cons, RunLoop_whole_cons, RunLoop_whole_cons]
      cases unmarshal data (if isMarker data = true then [] else record) with
      | error e => rfl
      | ok r1 => exact ih _ _ _

/-- On every answer of the reader the records `Run` collects are those of the
reference on the handed lines. -/
theorem RunRecords_handed (input : List (Str × Bool)) :
    RunRecords input = reference (handed input) := by
  unfold RunRecords
  rw [RunLoop_handed]
  exact RunRecords_eq_reference (handed input)

theorem Run_handed (input : List (Str × Bool)) :
    Run input = Run (wholeLines (handed input)) := by
  have h : RunRecords input = RunRecords (wholeLines (handed input)) := by
    rw [RunRecords_handed, RunRecords_eq_reference]
  unfold Run
  rw [h]

/-- C1 (the code at the failing input): on every answer of the reader the loop
of `Run` yields the records of the reference on the handed lines, and a line
returned in pieces is handed as its last piece alone. For the log `longLog`,
whose three logical lines all pass coercion, the record collected holds the
query text `1,2,3);` of length 7 and no query type, where the reference on the
logical lines holds the whole statement, length 36 and type `SELECT`. -/
theorem RunRecords_longLog :
    (∀ input, RunRecords input = reference (handed input)) ∧
    (∀ l ∈ longLogLines, coercible l = true) ∧
    handed longLog =
      ["# Time: 230101 10:00:00".toList, "# Query_time: 2.5".toList, "1,2,3);".toList] ∧
    RunRecords longLog = .ok
      [[("time".toList, .time (Date 2023 1 1 10 0 0 0)),
        ("query_time".toList, .duration 2500000000),
        ("query".toList, .string "1,2,3);".toList),
        ("time_start".toList, .time (Date 2023 1 1 9 59 57 500000000)),
        ("query_length".toList, .int 7),
        ("query_type".toList, .string [])]] ∧
    reference longLogLines = .ok
      [[("time".toList, .time (Date 2023 1 1 10 0 0 0)),
        ("query_time".toList, .duration 2500000000),
        ("query".toList, .string "SELECT * FROM t WHERE id IN (1,2,3);".toList),
        ("time_start".toList, .time (Date 2023 1 1 9 59 57 500000000)),
        ("query_length".toList, .int 36),
        ("query_type".toList, .string "SELECT".toList)]] ∧
    RunRecords longLog ≠ reference longLogLines :=
  ⟨RunRecords_handed, by decide!, by decide!, by decide!, by decide!, by decide!⟩

/-- On every answer of the reader, when some handed line carries an annotation
whose captured value fails coercion, `Run` ends in the `log.Fatalf` of a rule
and saves no record. -/
theorem Run_aborts_handed (input : List (Str × Bool))
    (h : ∃ l ∈ handed input, ¬ Coercible l) :
    ∃ kr ∈ rules, ∃ raw, parse raw kr.1 kr.2 = none ∧
      Run input = .error (.fatal kr.1 raw) ∧ output (Run input) = [] := by
  obtain ⟨_, _, _, _, _, kr, hk, raw, _, hp, _, hrun, hout⟩ := Run_aborts (handed input) h
  rw [← Run_handed] at hrun hout
  exact ⟨kr, hk, raw, hp, hrun, hout⟩

/-- C13 (the code at the failing input): on every answer of the reader `Run`
ends without saving a record when a handed line fails coercion; but a line
returned in pieces is handed as its last piece alone. The line
`# Schema: db Full_scan: Maybe` fails coercion and read whole ends the run,
while for the log `brokenLog`, where the reader returns it in two pieces, `Run`
does not end the run and saves one record. -/
theorem Run_brokenLog :
    (∀ input, (∃ l ∈ handed input, ¬ Coercible l) →
      ∃ kr ∈ rules, ∃ raw, parse raw kr.1 kr.2 = none ∧
        Run input = .error (.fatal kr.1 raw) ∧ output (Run input) = []) ∧
    coercible "# Schema: db Full_scan: Maybe".toList = false ∧
    Run (wholeLines brokenLogLines) = .error (.fatal "Full_scan".toList "Maybe".toList) ∧
    output (Run (wholeLines brokenLogLines)) = [] ∧
    handed brokenLog = ["# Time: 230101 10:00:00".toList, "Full_scan: Maybe".toList] ∧
    Run brokenLog = .ok
      [[("time".toList, .string "2023-01-01 10:00:00.00000000".toList),
        ("query".toList, .string "Full_scan: Maybe".toList),
        ("query_length".toList, .int 16),
        ("query_type".toList, .string [])]] ∧
    (output (Run brokenLog)).length = 1 :=
  ⟨Run_aborts_handed, by decide!, by decide!, by decide!, by decide!, by decide!, by decide!⟩

end Lami
